import Mathlib

/-!
Verification of the canonicalization / decanonicalization core of the
type-inference engine (crates/ra_hir/src/ty/infer/unify.rs).

The canonicalizer and decanonicalizer themselves are translated directly from
unify.rs.  The type representation (Ty, InferTy), the fold / bound-substitution
primitives, the unification table and the inference-context operations they use
live in files of the repository that are not part of the sources at hand; those
are modelled from the specification (spec sections 3, 4.1, 4.2, 4.4 and 6), as
marked on each definition.
-/

/-- Modelled from the spec: inference-variable kind (general/integer/float
type variable), each wrapping an opaque identifier; equality requires both the
category and the identifier to match (spec section 3, InferTy). -/
inductive InferTy where
  | TypeVar (id : Nat)
  | IntVar (id : Nat)
  | FloatVar (id : Nat)
deriving DecidableEq, Repr

/-- Modelled from the spec: extract the underlying unification-table identifier
from an inference variable (used as the key for the variable stack and the
table probes). -/
def InferTy.to_inner : InferTy → Nat
  | .TypeVar id => id
  | .IntVar id => id
  | .FloatVar id => id

/-- Modelled from the spec: the recursive type value (spec section 3, Ty).
Only Infer and Bound matter structurally; all other variants are opaque
containers of nested types, represented by Apply (an opaque constructor tag
with a list of type arguments) and the nullary Unknown. -/
inductive Ty where
  | Infer (tv : InferTy)
  | Bound (idx : Nat)
  | Apply (ctor : Nat) (parameters : List Ty)
  | Unknown

/-- Modelled from the spec: the designated per-kind fallback concrete value
returned when a recursive type is detected (spec sections 4.3a and 7): the
unknown type for general variables, and a designated concrete integer/float
type for literal variables (represented here as distinguished nullary
constructors). -/
def InferTy.fallback_value : InferTy → Ty
  | .TypeVar _ => Ty.Unknown
  | .IntVar _ => Ty.Apply 1000 []
  | .FloatVar _ => Ty.Apply 1001 []

mutual
/-- Modelled from the spec: the generic fold (spec section 4.1) — applies the
transform to every node, rebuilding composite nodes from their (already
rewritten) children; the transform's return value replaces the node and is not
re-traversed. -/
def Ty.fold (f : Ty → Ty) : Ty → Ty
  | .Apply ctor ps => f (.Apply ctor (Ty.fold_list f ps))
  | ty => f ty

/-- Fold over every element of a list of types (children of a composite
node). -/
def Ty.fold_list (f : Ty → Ty) : List Ty → List Ty
  | [] => []
  | p :: ps => Ty.fold f p :: Ty.fold_list f ps
end

/-- Modelled from the spec: bound-substitution (spec section 4.1) — replace
each Bound i by replacements[i], leaving all other structure intact.  An
out-of-range index is a caller error, not checked; the node is left in place. -/
def Ty.subst_bound_vars (ty : Ty) (substs : List Ty) : Ty :=
  ty.fold (fun ty => match ty with
    | Ty.Bound idx => match substs[idx]? with
      | some s => s
      | none => Ty.Bound idx
    | ty => ty)

/-- Canonical value: a value together with the number of positional
placeholders bound in it (spec section 3). -/
structure Canonical (T : Type) where
  value : T
  num_vars : Nat
deriving Repr

/-- Modelled from the spec: a trait reference holds an opaque trait identity
and an ordered sequence of type arguments (spec section 3). -/
structure TraitRef where
  trait_ : Nat
  substs : List Ty

/-- Modelled from the spec: a projection type holds an opaque associated-type
identity and an ordered sequence of type parameters (spec section 3). -/
structure ProjectionTy where
  associated_ty : Nat
  parameters : List Ty

/-- Modelled from the spec: a projection predicate relates a projection type
and a type (spec section 3). -/
structure ProjectionPredicate where
  projection_ty : ProjectionTy
  ty : Ty

/-- Modelled from the spec: a value wrapped with an opaque environment, which
is carried through unchanged by this core (spec section 3). -/
structure InEnvironment (T : Type) where
  value : T
  environment : Nat

/-- Modelled from the spec: the unification table (spec section 4.2).  reprOf
gives the representative of an identifier's equivalence class (the
path-compressing find, observationally a pure function for a fixed table
state); values assigns concrete types to classes, keyed by identifier and
consulted through the representative. -/
structure UnifTable where
  reprOf : Nat → Nat
  values : List (Nat × Ty)

/-- Modelled from the spec: find(id) — the representative of id's equivalence
class (spec section 4.2). -/
def UnifTable.find (t : UnifTable) (id : Nat) : Nat :=
  t.reprOf id

/-- Modelled from the spec: probe_value(id) — the concrete type, if any,
currently assigned to id's class (spec section 4.2). -/
def UnifTable.probe_value (t : UnifTable) (id : Nat) : Option Ty :=
  t.values.lookup (t.reprOf id)

/-- Modelled from the spec: the inference context exposes a mutable
unification table, a fresh-variable allocator and the external unify
primitive (spec section 6).  Fresh variables are drawn from the next_var
counter; unify's binding logic is outside this core (spec section 4.2), so the
context records the equality constraints fed to it. -/
structure InferenceContext where
  var_unification_table : UnifTable
  next_var : Nat
  unify_log : List (Ty × Ty)

/-- Modelled from the spec: create a fresh inference variable in the context
(spec section 6). -/
def InferenceContext.new_type_var (ctx : InferenceContext) : Ty × InferenceContext :=
  (Ty.Infer (InferTy.TypeVar ctx.next_var), { ctx with next_var := ctx.next_var + 1 })

/-- Modelled from the spec: the external union/assign unify primitive (spec
sections 4.2 and 4.4).  Its binding logic is out of scope; the equality
constraint it is fed is recorded in the context's log. -/
def InferenceContext.unify (ctx : InferenceContext) (ty1 ty2 : Ty) : InferenceContext :=
  { ctx with unify_log := ctx.unify_log ++ [(ty1, ty2)] }

mutual
/-- All identifiers occurring in Infer nodes of a type (used only for the
termination measure of the canonicalizer). -/
def Ty.ids : Ty → Finset Nat
  | .Infer tv => {tv.to_inner}
  | .Apply _ ps => Ty.ids_list ps
  | _ => ∅

/-- All identifiers occurring in Infer nodes of any type in a list. -/
def Ty.ids_list : List Ty → Finset Nat
  | [] => ∅
  | p :: ps => Ty.ids p ∪ Ty.ids_list ps
end

/-- All identifiers occurring in the types stored in the table (used only for
the termination measure of the canonicalizer). -/
def UnifTable.tableIds (t : UnifTable) : Finset Nat :=
  t.values.foldr (fun p acc => Ty.ids p.2 ∪ acc) ∅

/-- From unify.rs lines 39-45 (Canonicalizer::add): look the free variable up
in the free-variable list by equality; reuse its position if present, else
append it and use the new position. -/
def Canonicalizer.add (fv : List InferTy) (free_var : InferTy) : Nat × List InferTy :=
  match fv.indexOf? free_var with
  | some i => (i, fv)
  | none => (fv.length, fv ++ [free_var])

mutual
/-- From unify.rs lines 47-73 (Canonicalizer::do_canonicalize_ty): fold the
type; at each Infer node, if the identifier is on the variable stack return the
kind's fallback value (recursive type), else probe the table — a known value is
canonicalized recursively with the identifier pushed on the stack, an
unresolved variable becomes Bound(position) of its class representative (same
kind, find-root) in the free-variable list.  The Rust method mutates the
canonicalizer's free_vars (threaded here through the result) and var_stack
(push before the recursive call, pop after — threaded here by passing the
extended stack only to that call); the unification table is only read. -/
def do_canonicalize_ty (t : UnifTable) (var_stack : List Nat) (fv : List InferTy) :
    Ty → Ty × List InferTy
  | .Infer tv =>
    if hst : tv.to_inner ∈ var_stack then (tv.fallback_value, fv)
    else
      match hpr : t.probe_value tv.to_inner with
      | some known => do_canonicalize_ty t (tv.to_inner :: var_stack) fv known
      | none =>
        let root := t.find tv.to_inner
        let free_var := match tv with
          | .TypeVar _ => InferTy.TypeVar root
          | .IntVar _ => InferTy.IntVar root
          | .FloatVar _ => InferTy.FloatVar root
        let pr := Canonicalizer.add fv free_var
        (Ty.Bound pr.1, pr.2)
  | .Apply ctor ps =>
    let pr := do_canonicalize_ty_list t var_stack fv ps
    (Ty.Apply ctor pr.1, pr.2)
  | ty => (ty, fv)
termination_by ty => (((Ty.ids ty ∪ t.tableIds) \ var_stack.toFinset).card, sizeOf ty)
decreasing_by
  · apply Prod.Lex.left
    apply Finset.card_lt_card
    constructor
    · intro x hx
      have hknown : Ty.ids known ⊆ t.tableIds := by
        have h' : List.lookup (t.reprOf tv.to_inner) t.values = some known := hpr
        unfold UnifTable.tableIds
        generalize t.values = l at h' ⊢
        induction l with
        | nil => simp [List.lookup] at h'
        | cons p ps ih =>
          rw [List.lookup] at h'
          by_cases hk : t.reprOf tv.to_inner == p.1
          · simp only [hk, if_pos] at h'
            simp only [Option.some.injEq] at h'
            subst h'
            simp only [List.foldr_cons]
            exact Finset.subset_union_left
          · simp only [hk, Bool.false_eq_true, if_neg, not_false_iff] at h'
            exact (ih h').trans Finset.subset_union_right
      simp only [Finset.mem_sdiff, Finset.mem_union, List.toFinset_cons,
        Finset.mem_insert] at hx ⊢
      obtain ⟨hin, hout⟩ := hx
      push_neg at hout
      refine ⟨Or.inr ?_, hout.2⟩
      rcases hin with h | h
      · exact hknown h
      · exact h
    · intro hsub
      have h0 : tv.to_inner ∈ (Ty.ids (Ty.Infer tv) ∪ t.tableIds) \ var_stack.toFinset := by
        simp [Ty.ids, hst]
      have h1 := hsub h0
      simp at h1
  · simp only [Ty.ids]
    exact Prod.Lex.right _ (by simp)

/-- Canonicalize every element of a list of types in order, threading the
free-variable list (children of a composite node in do_canonicalize_ty's fold,
and the iterated maps of unify.rs lines 75-82 and 91-98). -/
def do_canonicalize_ty_list (t : UnifTable) (var_stack : List Nat) (fv : List InferTy) :
    List Ty → List Ty × List InferTy
  | [] => ([], fv)
  | p :: ps =>
    let pr := do_canonicalize_ty t var_stack fv p
    let pr2 := do_canonicalize_ty_list t var_stack pr.2 ps
    (pr.1 :: pr2.1, pr2.2)
termination_by ps => (((Ty.ids_list ps ∪ t.tableIds) \ var_stack.toFinset).card, sizeOf ps)
decreasing_by
  · rename List Ty => ps
    have hsub : Ty.ids p ∪ t.tableIds ⊆ Ty.ids_list (p :: ps) ∪ t.tableIds := by
      apply Finset.union_subset_union_left
      simp [Ty.ids_list]
    have hle := Finset.card_le_card
      (Finset.sdiff_subset_sdiff hsub (le_refl var_stack.toFinset))
    rcases lt_or_eq_of_le hle with h | h
    · exact Prod.Lex.left _ _ h
    · rw [h]; exact Prod.Lex.right _ (by simp only [List.cons.sizeOf_spec]; omega)
  · rename List Ty => ps
    have hsub : Ty.ids_list ps ∪ t.tableIds ⊆ Ty.ids_list (p :: ps) ∪ t.tableIds := by
      apply Finset.union_subset_union_left
      simp [Ty.ids_list]
    have hle := Finset.card_le_card
      (Finset.sdiff_subset_sdiff hsub (le_refl var_stack.toFinset))
    rcases lt_or_eq_of_le hle with h | h
    · exact Prod.Lex.left _ _ h
    · rw [h]; exact Prod.Lex.right _ (by simp only [List.cons.sizeOf_spec]; omega)
end

/-- From unify.rs lines 75-82 (Canonicalizer::do_canonicalize_trait_ref):
canonicalize each substitution type in order; the trait identity passes
through. -/
def do_canonicalize_trait_ref (t : UnifTable) (var_stack : List Nat) (fv : List InferTy)
    (trait_ref : TraitRef) : TraitRef × List InferTy :=
  let pr := do_canonicalize_ty_list t var_stack fv trait_ref.substs
  ({ trait_ := trait_ref.trait_, substs := pr.1 }, pr.2)

/-- From unify.rs lines 91-98 (Canonicalizer::do_canonicalize_projection_ty):
canonicalize each parameter in order; the associated-type identity passes
through. -/
def do_canonicalize_projection_ty (t : UnifTable) (var_stack : List Nat) (fv : List InferTy)
    (projection_ty : ProjectionTy) : ProjectionTy × List InferTy :=
  let pr := do_canonicalize_ty_list t var_stack fv projection_ty.parameters
  ({ associated_ty := projection_ty.associated_ty, parameters := pr.1 }, pr.2)

/-- From unify.rs lines 100-108 (Canonicalizer::do_canonicalize_projection_predicate):
canonicalize the predicate's type, then its projection type, threading the same
free-variable list. -/
def do_canonicalize_projection_predicate (t : UnifTable) (var_stack : List Nat)
    (fv : List InferTy) (projection : ProjectionPredicate) :
    ProjectionPredicate × List InferTy :=
  let pr1 := do_canonicalize_ty t var_stack fv projection.ty
  let pr2 := do_canonicalize_projection_ty t var_stack pr1.2 projection.projection_ty
  ({ ty := pr1.1, projection_ty := pr2.1 }, pr2.2)

/-- Canonicalized value: the canonical value together with the captured
free-variable list (unify.rs lines 30-33). -/
structure Canonicalized (T : Type) where
  value : Canonical T
  free_vars : List InferTy

/-- From unify.rs lines 84-89 (Canonicalizer::into_canonicalized): wrap the
result with the final free-variable-list length as num_vars and capture the
free-variable list. -/
def into_canonicalized (fv : List InferTy) (result : T) : Canonicalized T :=
  { value := { value := result, num_vars := fv.length }, free_vars := fv }

/-- From unify.rs lines 10-15 and 113-116 (canonicalizer / canonicalize_ty):
canonicalize a type starting from an empty free-variable list and an empty
variable stack. -/
def canonicalize_ty (ctx : InferenceContext) (ty : Ty) : Canonicalized Ty :=
  let pr := do_canonicalize_ty ctx.var_unification_table [] [] ty
  into_canonicalized pr.2 pr.1

/-- From unify.rs lines 118-128 (canonicalize_trait_ref): canonicalize the
wrapped trait reference; the environment passes through unchanged (not
canonicalized). -/
def canonicalize_trait_ref (ctx : InferenceContext)
    (trait_ref_in_env : InEnvironment TraitRef) : Canonicalized (InEnvironment TraitRef) :=
  let pr := do_canonicalize_trait_ref ctx.var_unification_table [] [] trait_ref_in_env.value
  into_canonicalized pr.2 { value := pr.1, environment := trait_ref_in_env.environment }

/-- From unify.rs lines 130-136 (canonicalize_projection). -/
def canonicalize_projection (ctx : InferenceContext)
    (projection : ProjectionPredicate) : Canonicalized ProjectionPredicate :=
  let pr := do_canonicalize_projection_predicate ctx.var_unification_table [] [] projection
  into_canonicalized pr.2 pr.1

/-- From unify.rs lines 140-151 (Canonicalized::decanonicalize_ty): fold the
type, replacing Bound(idx) by Infer(free_vars[idx]) when idx is in range and
leaving it unchanged otherwise. -/
def Canonicalized.decanonicalize_ty (c : Canonicalized T) (ty : Ty) : Ty :=
  ty.fold (fun ty => match ty with
    | Ty.Bound idx =>
      if h : idx < c.free_vars.length then Ty.Infer (c.free_vars.get ⟨idx, h⟩)
      else Ty.Bound idx
    | ty => ty)

/-- From unify.rs lines 159-160: allocate the requested number of fresh
inference variables in the context, collecting them in order. -/
def new_type_vars (ctx : InferenceContext) : Nat → List Ty × InferenceContext
  | 0 => ([], ctx)
  | n + 1 =>
    let pr := ctx.new_type_var
    let pr2 := new_type_vars pr.2 n
    (pr.1 :: pr2.1, pr2.2)

/-- From unify.rs lines 161-164: the enumerated loop of apply_solution — for
each solution type, index the free-variable list at the current position (the
Rust Vec indexing panics when out of bounds, modelled by none) and unify that
original free variable with the solution type after bound-substitution with
the fresh variables. -/
def apply_solution_loop (free_vars : List InferTy) (new_vars : List Ty) :
    InferenceContext → Nat → List Ty → Option InferenceContext
  | ctx, _, [] => some ctx
  | ctx, i, ty :: rest =>
    if h : i < free_vars.length then
      apply_solution_loop free_vars new_vars
        (ctx.unify (Ty.Infer (free_vars.get ⟨i, h⟩)) (ty.subst_bound_vars new_vars))
        (i + 1) rest
    else none

/-- From unify.rs lines 153-165 (Canonicalized::apply_solution): allocate
solution.num_vars fresh inference variables, then for each solution type in
order unify the corresponding original free variable with it after
substituting its Bound indices by the fresh variables. -/
def Canonicalized.apply_solution (c : Canonicalized T) (ctx : InferenceContext)
    (solution : Canonical (List Ty)) : Option InferenceContext :=
  let pr := new_type_vars ctx solution.num_vars
  apply_solution_loop c.free_vars pr.1 pr.2 0 solution.value

/-- The representative inference variable of a variable's equivalence class:
same kind, find-root identifier (the free_var computed at unify.rs lines
61-66). -/
def class_rep (t : UnifTable) (tv : InferTy) : InferTy :=
  match tv with
  | .TypeVar _ => InferTy.TypeVar (t.find tv.to_inner)
  | .IntVar _ => InferTy.IntVar (t.find tv.to_inner)
  | .FloatVar _ => InferTy.FloatVar (t.find tv.to_inner)

mutual
/-- Check a Boolean predicate at every node of a type (composite nodes are
tested as given, before any rewriting). -/
def Ty.all_nodes (p : Ty → Bool) : Ty → Bool
  | .Apply ctor ps => p (.Apply ctor ps) && Ty.all_nodes_list p ps
  | ty => p ty

/-- Check a Boolean predicate at every node of every type in a list. -/
def Ty.all_nodes_list (p : Ty → Bool) : List Ty → Bool
  | [] => true
  | q :: qs => Ty.all_nodes p q && Ty.all_nodes_list p qs
end

/-- The type contains no live inference variables (no Infer node). -/
def Ty.no_infer (ty : Ty) : Bool :=
  ty.all_nodes (fun s => match s with | .Infer _ => false | _ => true)

/-- The type contains no positional placeholder (no Bound node). -/
def Ty.no_bound (ty : Ty) : Bool :=
  ty.all_nodes (fun s => match s with | .Bound _ => false | _ => true)

/-- Every Bound index in the type is strictly below n. -/
def Ty.bounds_lt (n : Nat) (ty : Ty) : Bool :=
  ty.all_nodes (fun s => match s with | .Bound i => decide (i < n) | _ => true)

/-- Every inference variable occurring in the type is unresolved in the
table. -/
def Ty.all_unresolved (t : UnifTable) (ty : Ty) : Bool :=
  ty.all_nodes (fun s => match s with
    | .Infer tv => (t.probe_value tv.to_inner).isNone
    | _ => true)

/-- Rename every inference variable of a type through f. -/
def Ty.rename_infer (f : InferTy → InferTy) (ty : Ty) : Ty :=
  ty.fold (fun ty => match ty with
    | .Infer tv => Ty.Infer (f tv)
    | ty => ty)

/-- Every type stored in the unification table is free of Bound placeholders
(spec section 3: a Bound index is meaningful only inside a canonical value,
while the table assigns live concrete types). -/
def UnifTable.values_no_bound (t : UnifTable) : Prop :=
  ∀ p ∈ t.values, p.2.no_bound = true

/-- A table whose resolved values form one cycle of length n: identifier i is
resolved to the inference variable i+1 mod n, every identifier being its own
representative. -/
def chain_table (n : Nat) : UnifTable :=
  { reprOf := fun id => id,
    values := (List.range n).map (fun i => (i, Ty.Infer (InferTy.TypeVar ((i + 1) % n)))) }

/-- An inference context over an identity-representative table with the given
resolved values, used as a concrete test fixture. -/
def id_ctx (values : List (Nat × Ty)) : InferenceContext :=
  { var_unification_table := { reprOf := fun id => id, values := values },
    next_var := 0,
    unify_log := [] }

/-- An inference context whose table is the cyclic chain of length n. -/
def chain_ctx (n : Nat) : InferenceContext :=
  { var_unification_table := chain_table n, next_var := 0, unify_log := [] }

/-- A concrete context fixture: identifier 1 resolved to a composite type
containing a further unresolved variable. -/
def sample_ctx : InferenceContext :=
  id_ctx [(1, Ty.Apply 7 [Ty.Infer (InferTy.TypeVar 2)])]

/-- A concrete type fixture with one resolved and one unresolved variable
occurrence (relative to sample_ctx). -/
def sample_ty : Ty :=
  Ty.Apply 9 [Ty.Infer (InferTy.TypeVar 1), Ty.Infer (InferTy.TypeVar 3)]

/-- A concrete environment-wrapped trait-reference fixture. -/
def sample_trait_ref : InEnvironment TraitRef :=
  { value := { trait_ := 2, substs := [Ty.Infer (InferTy.TypeVar 1)] }, environment := 8 }

/-- A concrete projection-predicate fixture sharing a variable between its two
Ty-valued fields. -/
def sample_projection : ProjectionPredicate :=
  { ty := Ty.Infer (InferTy.TypeVar 3),
    projection_ty := { associated_ty := 4, parameters := [Ty.Infer (InferTy.TypeVar 1)] } }

/-- Structural induction over Ty, with the membership form of the hypothesis
for composite nodes. -/
theorem Ty.induction_on (P : Ty → Prop)
    (hInfer : ∀ tv, P (Ty.Infer tv))
    (hBound : ∀ idx, P (Ty.Bound idx))
    (hApply : ∀ ctor ps, (∀ p ∈ ps, P p) → P (Ty.Apply ctor ps))
    (hUnknown : P Ty.Unknown) : ∀ ty, P ty :=
  Ty.rec (motive_1 := P) (motive_2 := fun ps => ∀ p ∈ ps, P p)
    hInfer hBound (fun ctor ps ih => hApply ctor ps ih) hUnknown
    (by simp)
    (fun p ps hp hps => by
      intro q hq
      rcases List.mem_cons.mp hq with h | h
      · exact h ▸ hp
      · exact hps q h)

theorem indexOf?_some_spec {l : List InferTy} {v : InferTy} {i : Nat}
    (h : l.indexOf? v = some i) : ∃ hi : i < l.length, l.get ⟨i, hi⟩ = v := by
  induction l generalizing i with
  | nil => simp at h
  | cons a as ih =>
    rw [List.indexOf?_cons] at h
    by_cases ha : a == v
    · simp only [ha, if_pos] at h
      obtain rfl : (0 : Nat) = i := by simpa using h
      exact ⟨by simp, by simpa using ha⟩
    · simp only [ha, Bool.false_eq_true, if_neg, not_false_iff, Option.map_eq_some'] at h
      obtain ⟨j, hj, rfl⟩ := h
      obtain ⟨hji, hget⟩ := ih hj
      exact ⟨by simpa using hji, by simpa using hget⟩

theorem indexOf?_none_not_mem {l : List InferTy} {v : InferTy}
    (h : l.indexOf? v = none) : v ∉ l := by
  intro hmem
  rw [List.indexOf?_eq_none_iff] at h
  exact h v hmem (by simp)

theorem indexOf?_append_some {l d : List InferTy} {v : InferTy} {i : Nat}
    (h : l.indexOf? v = some i) : (l ++ d).indexOf? v = some i := by
  induction l generalizing i with
  | nil => simp at h
  | cons a as ih =>
    rw [List.indexOf?_cons] at h
    rw [List.cons_append, List.indexOf?_cons]
    by_cases ha : a == v
    · simp only [ha, if_pos] at h ⊢
      exact h
    · simp only [ha, Bool.false_eq_true, if_neg, not_false_iff, Option.map_eq_some'] at h ⊢
      obtain ⟨j, hj, rfl⟩ := h
      exact ⟨j, ih hj, rfl⟩

theorem mem_indexOf?_some {l : List InferTy} {v : InferTy} (h : v ∈ l) :
    ∃ i, l.indexOf? v = some i := by
  cases hx : l.indexOf? v with
  | some i => exact ⟨i, rfl⟩
  | none => exact absurd h (indexOf?_none_not_mem hx)

theorem canon_infer_on_stack {t : UnifTable} {var_stack : List Nat} {fv : List InferTy}
    {tv : InferTy} (hst : tv.to_inner ∈ var_stack) :
    do_canonicalize_ty t var_stack fv (Ty.Infer tv) = (tv.fallback_value, fv) := by
  rw [do_canonicalize_ty]
  rw [dif_pos hst]

theorem canon_infer_resolved {t : UnifTable} {var_stack : List Nat} {fv : List InferTy}
    {tv : InferTy} {known : Ty} (hst : tv.to_inner ∉ var_stack)
    (hpr : t.probe_value tv.to_inner = some known) :
    do_canonicalize_ty t var_stack fv (Ty.Infer tv) =
      do_canonicalize_ty t (tv.to_inner :: var_stack) fv known := by
  rw [do_canonicalize_ty]
  rw [dif_neg hst]
  split
  · rename_i known2 hpr2
    rw [hpr] at hpr2
    injection hpr2 with h
    rw [h]
  · rename_i hpr2
    rw [hpr] at hpr2
    simp at hpr2

theorem canon_infer_unresolved {t : UnifTable} {var_stack : List Nat} {fv : List InferTy}
    {tv : InferTy} (hst : tv.to_inner ∉ var_stack)
    (hpr : t.probe_value tv.to_inner = none) :
    do_canonicalize_ty t var_stack fv (Ty.Infer tv) =
      (Ty.Bound (Canonicalizer.add fv (class_rep t tv)).1,
        (Canonicalizer.add fv (class_rep t tv)).2) := by
  rw [do_canonicalize_ty]
  rw [dif_neg hst]
  split
  · rename_i known2 hpr2
    rw [hpr] at hpr2
    simp at hpr2
  · cases tv <;> rfl

theorem canon_apply {t : UnifTable} {var_stack : List Nat} {fv : List InferTy}
    {ctor : Nat} {ps : List Ty} :
    do_canonicalize_ty t var_stack fv (Ty.Apply ctor ps) =
      ((Ty.Apply ctor (do_canonicalize_ty_list t var_stack fv ps).1),
        (do_canonicalize_ty_list t var_stack fv ps).2) := by
  rw [do_canonicalize_ty]

theorem canon_bound {t : UnifTable} {var_stack : List Nat} {fv : List InferTy} {idx : Nat} :
    do_canonicalize_ty t var_stack fv (Ty.Bound idx) = (Ty.Bound idx, fv) := by
  rw [do_canonicalize_ty]
  all_goals simp

theorem canon_unknown {t : UnifTable} {var_stack : List Nat} {fv : List InferTy} :
    do_canonicalize_ty t var_stack fv Ty.Unknown = (Ty.Unknown, fv) := by
  rw [do_canonicalize_ty]
  all_goals simp

theorem canon_list_nil {t : UnifTable} {var_stack : List Nat} {fv : List InferTy} :
    do_canonicalize_ty_list t var_stack fv [] = ([], fv) := by
  rw [do_canonicalize_ty_list]

theorem canon_list_cons {t : UnifTable} {var_stack : List Nat} {fv : List InferTy}
    {p : Ty} {ps : List Ty} :
    do_canonicalize_ty_list t var_stack fv (p :: ps) =
      ((do_canonicalize_ty t var_stack fv p).1 ::
         (do_canonicalize_ty_list t var_stack (do_canonicalize_ty t var_stack fv p).2 ps).1,
        (do_canonicalize_ty_list t var_stack (do_canonicalize_ty t var_stack fv p).2 ps).2) := by
  rw [do_canonicalize_ty_list]

theorem canon_other {t : UnifTable} {var_stack : List Nat} {fv : List InferTy} {ty : Ty}
    (h1 : ∀ tv, ty = Ty.Infer tv → False) (h2 : ∀ ctor ps, ty = Ty.Apply ctor ps → False) :
    do_canonicalize_ty t var_stack fv ty = (ty, fv) := by
  cases ty with
  | Infer tv => exact absurd rfl (h1 tv)
  | Apply ctor ps => exact absurd rfl (h2 ctor ps)
  | Bound idx => exact canon_bound
  | Unknown => exact canon_unknown

theorem add_eq_of_indexOf?_some {fv : List InferTy} {v : InferTy} {i : Nat}
    (h : fv.indexOf? v = some i) : Canonicalizer.add fv v = (i, fv) := by
  rw [Canonicalizer.add, h]

theorem add_eq_of_indexOf?_none {fv : List InferTy} {v : InferTy}
    (h : fv.indexOf? v = none) : Canonicalizer.add fv v = (fv.length, fv ++ [v]) := by
  rw [Canonicalizer.add, h]

theorem add_extends (fv : List InferTy) (v : InferTy) :
    ∃ d, (Canonicalizer.add fv v).2 = fv ++ d := by
  rw [Canonicalizer.add]
  cases h : fv.indexOf? v with
  | some i => exact ⟨[], by simp⟩
  | none => exact ⟨[v], rfl⟩

theorem canon_ty_extends (t : UnifTable) :
    ∀ var_stack fv ty, ∃ d, (do_canonicalize_ty t var_stack fv ty).2 = fv ++ d :=
  do_canonicalize_ty.induct t
    (fun var_stack fv ty => ∃ d, (do_canonicalize_ty t var_stack fv ty).2 = fv ++ d)
    (fun var_stack fv ps => ∃ d, (do_canonicalize_ty_list t var_stack fv ps).2 = fv ++ d)
    (fun s fv tv hst => by
      show ∃ d, (do_canonicalize_ty t s fv (Ty.Infer tv)).2 = fv ++ d
      rw [canon_infer_on_stack hst]
      exact ⟨[], by simp⟩)
    (fun s fv tv hst known hpr ih => by
      show ∃ d, (do_canonicalize_ty t s fv (Ty.Infer tv)).2 = fv ++ d
      rw [canon_infer_resolved hst hpr]
      exact ih)
    (fun s fv tv hst hpr => by
      show ∃ d, (do_canonicalize_ty t s fv (Ty.Infer tv)).2 = fv ++ d
      rw [canon_infer_unresolved hst hpr]
      exact add_extends fv (class_rep t tv))
    (fun s fv ctor ps ih => by
      show ∃ d, (do_canonicalize_ty t s fv (Ty.Apply ctor ps)).2 = fv ++ d
      rw [canon_apply]
      exact ih)
    (fun s fv x h1 h2 => by
      show ∃ d, (do_canonicalize_ty t s fv x).2 = fv ++ d
      rw [canon_other h1 h2]
      exact ⟨[], by simp⟩)
    (fun s fv => by
      show ∃ d, (do_canonicalize_ty_list t s fv []).2 = fv ++ d
      rw [canon_list_nil]
      exact ⟨[], by simp⟩)
    (fun s fv p ps ihp ihps => by
      show ∃ d, (do_canonicalize_ty_list t s fv (p :: ps)).2 = fv ++ d
      rw [canon_list_cons]
      obtain ⟨d1, hd1⟩ := ihp
      obtain ⟨d2, hd2⟩ := ihps
      exact ⟨d1 ++ d2, by rw [hd2, hd1, List.append_assoc]⟩)

theorem canon_list_extends (t : UnifTable) (var_stack : List Nat) (fv : List InferTy)
    (ps : List Ty) : ∃ d, (do_canonicalize_ty_list t var_stack fv ps).2 = fv ++ d := by
  induction ps generalizing fv with
  | nil => exact ⟨[], by rw [canon_list_nil]; simp⟩
  | cons p ps ih =>
    rw [canon_list_cons]
    obtain ⟨d1, hd1⟩ := canon_ty_extends t var_stack fv p
    obtain ⟨d2, hd2⟩ := ih (do_canonicalize_ty t var_stack fv p).2
    exact ⟨d1 ++ d2, by rw [hd2, hd1, List.append_assoc]⟩

theorem lookup_mem {l : List (Nat × Ty)} {k : Nat} {v : Ty}
    (h : l.lookup k = some v) : (k, v) ∈ l := by
  induction l with
  | nil => simp [List.lookup] at h
  | cons p ps ih =>
    rw [List.lookup] at h
    by_cases hk : k == p.1
    · simp only [hk, if_pos, Option.some.injEq] at h
      have hk' : k = p.1 := by simpa using hk
      subst h
      exact List.mem_cons.mpr (Or.inl (by rw [hk']))
    · simp only [hk, Bool.false_eq_true, if_neg, not_false_iff] at h
      exact List.mem_cons.mpr (Or.inr (ih h))

theorem all_nodes_infer (p : Ty → Bool) (tv : InferTy) :
    Ty.all_nodes p (Ty.Infer tv) = p (Ty.Infer tv) := by
  rw [Ty.all_nodes]
  all_goals simp

theorem all_nodes_bound (p : Ty → Bool) (idx : Nat) :
    Ty.all_nodes p (Ty.Bound idx) = p (Ty.Bound idx) := by
  rw [Ty.all_nodes]
  all_goals simp

theorem all_nodes_unknown (p : Ty → Bool) :
    Ty.all_nodes p Ty.Unknown = p Ty.Unknown := by
  rw [Ty.all_nodes]
  all_goals simp

theorem all_nodes_apply (p : Ty → Bool) (ctor : Nat) (ps : List Ty) :
    Ty.all_nodes p (Ty.Apply ctor ps) = (p (Ty.Apply ctor ps) && Ty.all_nodes_list p ps) := by
  rw [Ty.all_nodes]

theorem all_nodes_list_iff (p : Ty → Bool) (ps : List Ty) :
    Ty.all_nodes_list p ps = true ↔ ∀ q ∈ ps, Ty.all_nodes p q = true := by
  induction ps with
  | nil => simp [Ty.all_nodes_list]
  | cons q qs ih =>
    rw [Ty.all_nodes_list]
    simp [ih]

theorem all_nodes_imp {p q : Ty → Bool} (hpq : ∀ s, p s = true → q s = true) :
    ∀ ty, Ty.all_nodes p ty = true → Ty.all_nodes q ty = true := by
  intro ty
  induction ty using Ty.induction_on with
  | hInfer tv => rw [all_nodes_infer, all_nodes_infer]; exact hpq _
  | hBound idx => rw [all_nodes_bound, all_nodes_bound]; exact hpq _
  | hUnknown => rw [all_nodes_unknown, all_nodes_unknown]; exact hpq _
  | hApply ctor ps ih =>
    rw [all_nodes_apply, all_nodes_apply]
    simp only [Bool.and_eq_true, all_nodes_list_iff]
    rintro ⟨h1, h2⟩
    exact ⟨hpq _ h1, fun u hu => ih u hu (h2 u hu)⟩

theorem bounds_lt_mono {n m : Nat} (hnm : n ≤ m) (ty : Ty)
    (h : ty.bounds_lt n = true) : ty.bounds_lt m = true := by
  refine all_nodes_imp (fun s => ?_) ty h
  cases s <;> simp_all
  omega

theorem fallback_no_infer (tv : InferTy) : tv.fallback_value.no_infer = true := by
  cases tv <;> rfl

theorem fallback_bounds_lt (tv : InferTy) (n : Nat) :
    tv.fallback_value.bounds_lt n = true := by
  cases tv <;> rfl

theorem add_nodup {fv : List InferTy} {v : InferTy} (h : fv.Nodup) :
    (Canonicalizer.add fv v).2.Nodup := by
  rw [Canonicalizer.add]
  cases hx : fv.indexOf? v with
  | some i => exact h
  | none =>
    have hnm : v ∉ fv := indexOf?_none_not_mem hx
    simpa [List.nodup_append] using ⟨h, hnm⟩

theorem canon_ty_nodup (t : UnifTable) :
    ∀ var_stack fv ty, fv.Nodup → (do_canonicalize_ty t var_stack fv ty).2.Nodup :=
  do_canonicalize_ty.induct t
    (fun var_stack fv ty => fv.Nodup → (do_canonicalize_ty t var_stack fv ty).2.Nodup)
    (fun var_stack fv ps => fv.Nodup → (do_canonicalize_ty_list t var_stack fv ps).2.Nodup)
    (fun s fv tv hst => by
      show fv.Nodup → (do_canonicalize_ty t s fv (Ty.Infer tv)).2.Nodup
      rw [canon_infer_on_stack hst]
      exact id)
    (fun s fv tv hst known hpr ih => by
      show fv.Nodup → (do_canonicalize_ty t s fv (Ty.Infer tv)).2.Nodup
      rw [canon_infer_resolved hst hpr]
      exact ih)
    (fun s fv tv hst hpr => by
      show fv.Nodup → (do_canonicalize_ty t s fv (Ty.Infer tv)).2.Nodup
      rw [canon_infer_unresolved hst hpr]
      exact add_nodup)
    (fun s fv ctor ps ih => by
      show fv.Nodup → (do_canonicalize_ty t s fv (Ty.Apply ctor ps)).2.Nodup
      rw [canon_apply]
      exact ih)
    (fun s fv x h1 h2 => by
      show fv.Nodup → (do_canonicalize_ty t s fv x).2.Nodup
      rw [canon_other h1 h2]
      exact id)
    (fun s fv => by
      show fv.Nodup → (do_canonicalize_ty_list t s fv []).2.Nodup
      rw [canon_list_nil]
      exact id)
    (fun s fv p ps ihp ihps => by
      show fv.Nodup → (do_canonicalize_ty_list t s fv (p :: ps)).2.Nodup
      rw [canon_list_cons]
      intro h
      exact ihps (ihp h))

theorem canon_list_length (t : UnifTable) (var_stack : List Nat) (ps : List Ty) :
    ∀ fv, (do_canonicalize_ty_list t var_stack fv ps).1.length = ps.length := by
  induction ps with
  | nil => intro fv; rw [canon_list_nil]
  | cons p ps ih =>
    intro fv
    rw [canon_list_cons]
    simp [ih]

theorem canon_list_append (t : UnifTable) (var_stack : List Nat) (xs : List Ty) :
    ∀ fv ys, do_canonicalize_ty_list t var_stack fv (xs ++ ys) =
      ((do_canonicalize_ty_list t var_stack fv xs).1 ++
        (do_canonicalize_ty_list t var_stack
          (do_canonicalize_ty_list t var_stack fv xs).2 ys).1,
       (do_canonicalize_ty_list t var_stack
          (do_canonicalize_ty_list t var_stack fv xs).2 ys).2) := by
  induction xs with
  | nil =>
    intro fv ys
    rw [List.nil_append, canon_list_nil]
    simp
  | cons x xs ih =>
    intro fv ys
    rw [List.cons_append, canon_list_cons, canon_list_cons, ih]
    simp

theorem canon_ty_invariant (t : UnifTable) (htab : t.values_no_bound) :
    ∀ var_stack fv ty, ty.no_bound = true →
      ((do_canonicalize_ty t var_stack fv ty).1.no_infer = true ∧
        (do_canonicalize_ty t var_stack fv ty).1.bounds_lt
          (do_canonicalize_ty t var_stack fv ty).2.length = true) :=
  do_canonicalize_ty.induct t
    (fun var_stack fv ty => ty.no_bound = true →
      ((do_canonicalize_ty t var_stack fv ty).1.no_infer = true ∧
        (do_canonicalize_ty t var_stack fv ty).1.bounds_lt
          (do_canonicalize_ty t var_stack fv ty).2.length = true))
    (fun var_stack fv ps => (∀ p ∈ ps, p.no_bound = true) →
      ∀ u ∈ (do_canonicalize_ty_list t var_stack fv ps).1,
        u.no_infer = true ∧
          u.bounds_lt (do_canonicalize_ty_list t var_stack fv ps).2.length = true)
    (fun s fv tv hst => by
      show Ty.no_bound (Ty.Infer tv) = true →
        ((do_canonicalize_ty t s fv (Ty.Infer tv)).1.no_infer = true ∧
          (do_canonicalize_ty t s fv (Ty.Infer tv)).1.bounds_lt
            (do_canonicalize_ty t s fv (Ty.Infer tv)).2.length = true)
      rw [canon_infer_on_stack hst]
      exact fun _ => ⟨fallback_no_infer tv, fallback_bounds_lt tv fv.length⟩)
    (fun s fv tv hst known hpr ih => by
      show Ty.no_bound (Ty.Infer tv) = true →
        ((do_canonicalize_ty t s fv (Ty.Infer tv)).1.no_infer = true ∧
          (do_canonicalize_ty t s fv (Ty.Infer tv)).1.bounds_lt
            (do_canonicalize_ty t s fv (Ty.Infer tv)).2.length = true)
      rw [canon_infer_resolved hst hpr]
      intro _
      have hknown : known.no_bound = true :=
        htab _ (lookup_mem hpr)
      exact ih hknown)
    (fun s fv tv hst hpr => by
      show Ty.no_bound (Ty.Infer tv) = true →
        ((do_canonicalize_ty t s fv (Ty.Infer tv)).1.no_infer = true ∧
          (do_canonicalize_ty t s fv (Ty.Infer tv)).1.bounds_lt
            (do_canonicalize_ty t s fv (Ty.Infer tv)).2.length = true)
      rw [canon_infer_unresolved hst hpr]
      intro _
      refine ⟨by simp [Ty.no_infer, all_nodes_bound], ?_⟩
      rw [Canonicalizer.add]
      cases hx : fv.indexOf? (class_rep t tv) with
      | some i =>
        obtain ⟨hi, _⟩ := indexOf?_some_spec hx
        simp [Ty.bounds_lt, all_nodes_bound, hi]
      | none =>
        simp [Ty.bounds_lt, all_nodes_bound])
    (fun s fv ctor ps ih => by
      show Ty.no_bound (Ty.Apply ctor ps) = true →
        ((do_canonicalize_ty t s fv (Ty.Apply ctor ps)).1.no_infer = true ∧
          (do_canonicalize_ty t s fv (Ty.Apply ctor ps)).1.bounds_lt
            (do_canonicalize_ty t s fv (Ty.Apply ctor ps)).2.length = true)
      rw [canon_apply]
      intro hnb
      have hnbl : ∀ p ∈ ps, p.no_bound = true := by
        rw [Ty.no_bound, all_nodes_apply] at hnb
        simp only [Bool.and_eq_true, all_nodes_list_iff] at hnb
        exact fun p hp => hnb.2 p hp
      have hmem := ih hnbl
      constructor
      · rw [Ty.no_infer, all_nodes_apply]
        simp only [Bool.and_eq_true, all_nodes_list_iff]
        exact ⟨trivial, fun u hu => (hmem u hu).1⟩
      · rw [Ty.bounds_lt, all_nodes_apply]
        simp only [Bool.and_eq_true, all_nodes_list_iff]
        exact ⟨trivial, fun u hu => (hmem u hu).2⟩)
    (fun s fv x h1 h2 => by
      show Ty.no_bound x = true →
        ((do_canonicalize_ty t s fv x).1.no_infer = true ∧
          (do_canonicalize_ty t s fv x).1.bounds_lt
            (do_canonicalize_ty t s fv x).2.length = true)
      rw [canon_other h1 h2]
      cases x with
      | Infer tv => exact absurd rfl (h1 tv)
      | Apply ctor ps => exact absurd rfl (h2 ctor ps)
      | Bound idx => intro hnb; rw [Ty.no_bound, all_nodes_bound] at hnb; simp at hnb
      | Unknown =>
        intro _
        exact ⟨by simp [Ty.no_infer, all_nodes_unknown],
          by simp [Ty.bounds_lt, all_nodes_unknown]⟩)
    (fun s fv => by
      show (∀ p ∈ ([] : List Ty), p.no_bound = true) →
        ∀ u ∈ (do_canonicalize_ty_list t s fv []).1,
          u.no_infer = true ∧
            u.bounds_lt (do_canonicalize_ty_list t s fv []).2.length = true
      rw [canon_list_nil]
      intro _ u hu
      simp at hu)
    (fun s fv p ps ihp ihps => by
      show (∀ q ∈ p :: ps, q.no_bound = true) →
        ∀ u ∈ (do_canonicalize_ty_list t s fv (p :: ps)).1,
          u.no_infer = true ∧
            u.bounds_lt (do_canonicalize_ty_list t s fv (p :: ps)).2.length = true
      rw [canon_list_cons]
      intro hnb u hu
      have hp := ihp (hnb p (List.mem_cons_self p ps))
      have hps := ihps (fun q hq => hnb q (List.mem_cons_of_mem p hq))
      obtain ⟨d, hd⟩ := canon_list_extends t s (do_canonicalize_ty t s fv p).2 ps
      rcases List.mem_cons.mp hu with h | h
      · subst h
        refine ⟨hp.1, ?_⟩
        refine bounds_lt_mono ?_ _ hp.2
        simp only [hd]
        simp
      · exact hps u h)

theorem fold_infer (f : Ty → Ty) (tv : InferTy) : Ty.fold f (Ty.Infer tv) = f (Ty.Infer tv) := by
  rw [Ty.fold]
  all_goals simp

theorem fold_bound (f : Ty → Ty) (idx : Nat) : Ty.fold f (Ty.Bound idx) = f (Ty.Bound idx) := by
  rw [Ty.fold]
  all_goals simp

theorem fold_unknown (f : Ty → Ty) : Ty.fold f Ty.Unknown = f Ty.Unknown := by
  rw [Ty.fold]
  all_goals simp

theorem fold_apply (f : Ty → Ty) (ctor : Nat) (ps : List Ty) :
    Ty.fold f (Ty.Apply ctor ps) = f (Ty.Apply ctor (Ty.fold_list f ps)) := by
  rw [Ty.fold]

theorem fold_list_nil (f : Ty → Ty) : Ty.fold_list f [] = [] := by
  rw [Ty.fold_list]

theorem fold_list_cons (f : Ty → Ty) (p : Ty) (ps : List Ty) :
    Ty.fold_list f (p :: ps) = Ty.fold f p :: Ty.fold_list f ps := by
  rw [Ty.fold_list]

theorem decanon_bound (c : Canonicalized T) (idx : Nat) :
    c.decanonicalize_ty (Ty.Bound idx) =
      (if h : idx < c.free_vars.length then Ty.Infer (c.free_vars.get ⟨idx, h⟩)
       else Ty.Bound idx) := by
  rw [Canonicalized.decanonicalize_ty, fold_bound]

theorem decanon_apply (c : Canonicalized T) (ctor : Nat) (ps : List Ty) :
    c.decanonicalize_ty (Ty.Apply ctor ps) =
      Ty.Apply ctor (Ty.fold_list (fun ty => match ty with
        | Ty.Bound idx =>
          if h : idx < c.free_vars.length then Ty.Infer (c.free_vars.get ⟨idx, h⟩)
          else Ty.Bound idx
        | ty => ty) ps) := by
  rw [Canonicalized.decanonicalize_ty, fold_apply]

theorem rename_infer_infer (f : InferTy → InferTy) (tv : InferTy) :
    (Ty.Infer tv).rename_infer f = Ty.Infer (f tv) := by
  rw [Ty.rename_infer, fold_infer]

theorem rename_infer_unknown (f : InferTy → InferTy) :
    Ty.Unknown.rename_infer f = Ty.Unknown := by
  rw [Ty.rename_infer, fold_unknown]

theorem rename_infer_apply (f : InferTy → InferTy) (ctor : Nat) (ps : List Ty) :
    (Ty.Apply ctor ps).rename_infer f =
      Ty.Apply ctor (Ty.fold_list (fun ty => match ty with
        | Ty.Infer tv => Ty.Infer (f tv)
        | ty => ty) ps) := by
  rw [Ty.rename_infer, fold_apply]

theorem indexOf?_append_self {l : List InferTy} {v : InferTy} (h : v ∉ l) :
    (l ++ [v]).indexOf? v = some l.length := by
  induction l with
  | nil => simp [List.indexOf?_cons]
  | cons a as ih =>
    rw [List.cons_append, List.indexOf?_cons]
    have ha : (a == v) = false := by
      simp only [beq_eq_false_iff_ne, ne_eq]
      intro hav
      exact h (hav ▸ List.mem_cons_self a as)
    rw [ha]
    simp only [Bool.false_eq_true, if_neg, not_false_iff]
    rw [ih (fun hm => h (List.mem_cons_of_mem a hm))]
    rfl

theorem add_indexOf? (fv : List InferTy) (v : InferTy) :
    (Canonicalizer.add fv v).2.indexOf? v = some (Canonicalizer.add fv v).1 := by
  rw [Canonicalizer.add]
  cases hx : fv.indexOf? v with
  | some i => exact hx
  | none => exact indexOf?_append_self (indexOf?_none_not_mem hx)

theorem fold_list_eq_map (f : Ty → Ty) (ps : List Ty) :
    Ty.fold_list f ps = ps.map (Ty.fold f) := by
  induction ps with
  | nil => rw [fold_list_nil]; rfl
  | cons p ps ih => rw [fold_list_cons, ih]; rfl

theorem decanon_apply_map (c : Canonicalized T) (ctor : Nat) (ps : List Ty) :
    c.decanonicalize_ty (Ty.Apply ctor ps) =
      Ty.Apply ctor (ps.map c.decanonicalize_ty) := by
  rw [decanon_apply, fold_list_eq_map]
  rfl

theorem rename_infer_apply_map (f : InferTy → InferTy) (ctor : Nat) (ps : List Ty) :
    (Ty.Apply ctor ps).rename_infer f = Ty.Apply ctor (ps.map (Ty.rename_infer f)) := by
  rw [rename_infer_apply, fold_list_eq_map]
  rfl

theorem decanon_unknown (c : Canonicalized T) :
    c.decanonicalize_ty Ty.Unknown = Ty.Unknown := by
  rw [Canonicalized.decanonicalize_ty, fold_unknown]

theorem canon_decanon_core {T : Type} (t : UnifTable) (c : Canonicalized T) :
    ∀ ty : Ty, ty.all_unresolved t = true → ty.no_bound = true →
      ∀ fv, (∃ d, c.free_vars = (do_canonicalize_ty t [] fv ty).2 ++ d) →
        c.decanonicalize_ty (do_canonicalize_ty t [] fv ty).1 =
          ty.rename_infer (class_rep t) := by
  intro ty
  induction ty using Ty.induction_on with
  | hInfer tv =>
    rintro hu _ fv ⟨d, hd⟩
    have hst : tv.to_inner ∉ ([] : List Nat) := by simp
    have hpr : t.probe_value tv.to_inner = none := by
      rw [Ty.all_unresolved, all_nodes_infer] at hu
      simpa [Option.isNone_iff_eq_none] using hu
    rw [canon_infer_unresolved hst hpr] at hd ⊢
    have hidx : c.free_vars.indexOf? (class_rep t tv) =
        some (Canonicalizer.add fv (class_rep t tv)).1 := by
      rw [hd]
      exact indexOf?_append_some (add_indexOf? fv (class_rep t tv))
    obtain ⟨hlt, hget⟩ := indexOf?_some_spec hidx
    rw [decanon_bound, dif_pos hlt, rename_infer_infer, hget]
  | hBound idx =>
    intro _ hnb
    rw [Ty.no_bound, all_nodes_bound] at hnb
    simp at hnb
  | hUnknown =>
    intro _ _ fv _
    rw [canon_unknown, decanon_unknown, rename_infer_unknown]
  | hApply ctor ps ih =>
    rintro hu hnb fv ⟨d, hd⟩
    rw [canon_apply] at hd ⊢
    rw [decanon_apply_map, rename_infer_apply_map]
    rw [Ty.all_unresolved, all_nodes_apply] at hu
    rw [Ty.no_bound, all_nodes_apply] at hnb
    simp only [Bool.and_eq_true, all_nodes_list_iff] at hu hnb
    have inner : ∀ qs : List Ty,
        (∀ q ∈ qs, q.all_unresolved t = true → q.no_bound = true →
          ∀ fv0, (∃ d0, c.free_vars = (do_canonicalize_ty t [] fv0 q).2 ++ d0) →
            c.decanonicalize_ty (do_canonicalize_ty t [] fv0 q).1 =
              q.rename_infer (class_rep t)) →
        (∀ q ∈ qs, Ty.all_nodes (fun s => match s with
            | Ty.Infer tv => (t.probe_value tv.to_inner).isNone
            | _ => true) q = true) →
        (∀ q ∈ qs, Ty.all_nodes (fun s => match s with
            | Ty.Bound _ => false
            | _ => true) q = true) →
        ∀ fv0, (∃ d0, c.free_vars = (do_canonicalize_ty_list t [] fv0 qs).2 ++ d0) →
          (do_canonicalize_ty_list t [] fv0 qs).1.map c.decanonicalize_ty =
            qs.map (Ty.rename_infer (class_rep t)) := by
      intro qs
      induction qs with
      | nil => intro _ _ _ fv0 _; rw [canon_list_nil]; rfl
      | cons q qs ihq =>
        rintro hih hu2 hnb2 fv0 ⟨d0, hd0⟩
        rw [canon_list_cons] at hd0 ⊢
        simp only [List.map_cons, List.cons.injEq]
        obtain ⟨d1, hd1⟩ :=
          canon_list_extends t [] (do_canonicalize_ty t [] fv0 q).2 qs
        constructor
        · refine hih q (List.mem_cons_self q qs) (hu2 q (List.mem_cons_self q qs))
            (hnb2 q (List.mem_cons_self q qs)) fv0 ⟨d1 ++ d0, ?_⟩
          rw [hd0, hd1, List.append_assoc]
        · exact ihq (fun q2 hq2 => hih q2 (List.mem_cons_of_mem q hq2))
            (fun q2 hq2 => hu2 q2 (List.mem_cons_of_mem q hq2))
            (fun q2 hq2 => hnb2 q2 (List.mem_cons_of_mem q hq2))
            (do_canonicalize_ty t [] fv0 q).2 ⟨d0, hd0⟩
    exact congrArg (Ty.Apply ctor)
      (inner ps (fun q hq => ih q hq) hu.2 hnb.2 fv ⟨d, hd⟩)

theorem lookup_append (l1 l2 : List (Nat × Ty)) (k : Nat) :
    (l1 ++ l2).lookup k =
      (match l1.lookup k with
       | some v => some v
       | none => l2.lookup k) := by
  induction l1 with
  | nil => simp [List.lookup]
  | cons p ps ih =>
    rw [List.cons_append, List.lookup, List.lookup]
    by_cases hk : k == p.1
    · simp [hk]
    · simp only [hk, Bool.false_eq_true, if_neg, not_false_iff]
      exact ih

theorem lookup_map_range (f : Nat → Ty) (n k : Nat) :
    ((List.range n).map (fun i => (i, f i))).lookup k =
      if k < n then some (f k) else none := by
  induction n with
  | zero => simp [List.lookup]
  | succ n ih =>
    rw [List.range_succ, List.map_append, lookup_append, ih]
    by_cases hk : k < n
    · simp [hk]
      omega
    · simp only [hk, if_neg, not_false_iff, if_false]
      by_cases hk2 : k = n
      · subst hk2
        simp [List.lookup]
      · have h3 : ¬ k < n + 1 := by omega
        have hne : (k == n) = false := by simp [hk2]
        simp [List.lookup, h3, hne]

theorem chain_probe (n k : Nat) :
    (chain_table n).probe_value k =
      if k < n then some (Ty.Infer (InferTy.TypeVar ((k + 1) % n))) else none := by
  rw [UnifTable.probe_value]
  exact lookup_map_range (fun i => Ty.Infer (InferTy.TypeVar ((i + 1) % n))) n k

theorem chain_canon (n : Nat) (hn : 1 ≤ n) :
    ∀ d k, k + d = n → ∀ fv,
      do_canonicalize_ty (chain_table n) ((List.range k).reverse) fv
        (Ty.Infer (InferTy.TypeVar (k % n))) = (Ty.Unknown, fv) := by
  intro d
  induction d with
  | zero =>
    intro k hk fv
    have hkn : k = n := by omega
    subst hkn
    have hst : (InferTy.TypeVar (k % k)).to_inner ∈ (List.range k).reverse := by
      rw [InferTy.to_inner, Nat.mod_self]
      simp
      omega
    rw [canon_infer_on_stack hst]
    rfl
  | succ d ih =>
    intro k hk fv
    have hkn : k < n := by omega
    have hmod : k % n = k := Nat.mod_eq_of_lt hkn
    have hst : (InferTy.TypeVar (k % n)).to_inner ∉ (List.range k).reverse := by
      rw [InferTy.to_inner, hmod]
      simp
    have hpr : (chain_table n).probe_value (InferTy.TypeVar (k % n)).to_inner =
        some (Ty.Infer (InferTy.TypeVar ((k + 1) % n))) := by
      rw [InferTy.to_inner, hmod, chain_probe, if_pos hkn]
    rw [canon_infer_resolved hst hpr]
    have hstack : (InferTy.TypeVar (k % n)).to_inner :: (List.range k).reverse =
        (List.range (k + 1)).reverse := by
      rw [InferTy.to_inner, hmod, List.range_succ, List.reverse_append]
      rfl
    rw [hstack]
    exact ih (k + 1) (by omega) fv

theorem new_type_vars_spec (n : Nat) : ∀ ctx : InferenceContext,
    (new_type_vars ctx n).1 =
        (List.range n).map (fun j => Ty.Infer (InferTy.TypeVar (ctx.next_var + j))) ∧
      (new_type_vars ctx n).2 =
        { ctx with next_var := ctx.next_var + n } := by
  induction n with
  | zero =>
    intro ctx
    rw [new_type_vars]
    simp
  | succ n ih =>
    intro ctx
    rw [new_type_vars]
    obtain ⟨h1, h2⟩ := ih { ctx with next_var := ctx.next_var + 1 }
    rw [InferenceContext.new_type_var]
    constructor
    · rw [h1, List.range_succ_eq_map]
      simp only [List.map_cons, List.map_map]
      congr 1
      apply List.map_congr_left
      intro j _
      have h : ctx.next_var + 1 + j = ctx.next_var + (j + 1) := by omega
      simp [Function.comp, h]
    · rw [h2]
      have h : ctx.next_var + 1 + n = ctx.next_var + (n + 1) := by omega
      simp [h]

theorem apply_solution_loop_spec (free_vars : List InferTy) (new_vars : List Ty) :
    ∀ vals (ctx : InferenceContext) i, i + vals.length ≤ free_vars.length →
      apply_solution_loop free_vars new_vars ctx i vals = some
        { ctx with unify_log := (ctx.unify_log ++
            List.zipWith (fun v ty => (Ty.Infer v, ty.subst_bound_vars new_vars))
              (free_vars.drop i) vals) } := by
  intro vals
  induction vals with
  | nil =>
    intro ctx i _
    rw [apply_solution_loop]
    simp
  | cons ty rest ih =>
    intro ctx i hlen
    have hi : i < free_vars.length := by
      simp only [List.length_cons] at hlen
      omega
    rw [apply_solution_loop, dif_pos hi]
    rw [ih _ (i + 1) (by simp only [List.length_cons] at hlen; omega)]
    have hdrop : free_vars.drop i = free_vars.get ⟨i, hi⟩ :: free_vars.drop (i + 1) := by
      rw [List.get_eq_getElem]
      exact List.drop_eq_getElem_cons hi
    rw [hdrop, List.zipWith_cons_cons]
    rw [InferenceContext.unify]
    simp

theorem apply_solution_loop_isSome (free_vars : List InferTy) (new_vars : List Ty) :
    ∀ vals (ctx : InferenceContext) i,
      (apply_solution_loop free_vars new_vars ctx i vals).isSome = true ↔
        (vals = [] ∨ i + vals.length ≤ free_vars.length) := by
  intro vals
  induction vals with
  | nil =>
    intro ctx i
    rw [apply_solution_loop]
    simp
  | cons ty rest ih =>
    intro ctx i
    rw [apply_solution_loop]
    by_cases hi : i < free_vars.length
    · rw [dif_pos hi, ih]
      simp only [List.length_cons]
      constructor
      · rintro (rfl | h)
        · right; simp; omega
        · right; omega
      · rintro (h | h)
        · simp at h
        · right; omega
    · rw [dif_neg hi]
      simp only [Option.isSome_none, Bool.false_eq_true, false_iff, not_or]
      constructor
      · simp
      · simp only [List.length_cons]
        omega

theorem canon_list_nodup (t : UnifTable) (var_stack : List Nat) (ps : List Ty) :
    ∀ fv : List InferTy, fv.Nodup → (do_canonicalize_ty_list t var_stack fv ps).2.Nodup := by
  induction ps with
  | nil => intro fv h; rw [canon_list_nil]; exact h
  | cons p ps ih =>
    intro fv h
    rw [canon_list_cons]
    exact ih _ (canon_ty_nodup t var_stack fv p h)

theorem canon_list_invariant (t : UnifTable) (htab : t.values_no_bound)
    (var_stack : List Nat) :
    ∀ ps (fv : List InferTy), (∀ p ∈ ps, p.no_bound = true) →
      ∀ u ∈ (do_canonicalize_ty_list t var_stack fv ps).1,
        u.no_infer = true ∧
          u.bounds_lt (do_canonicalize_ty_list t var_stack fv ps).2.length = true := by
  intro ps
  induction ps with
  | nil =>
    intro fv _ u hu
    rw [canon_list_nil] at hu
    simp at hu
  | cons p ps ih =>
    intro fv hnb u hu
    rw [canon_list_cons] at hu ⊢
    simp only [List.mem_cons] at hu
    obtain ⟨d, hd⟩ := canon_list_extends t var_stack (do_canonicalize_ty t var_stack fv p).2 ps
    rcases hu with h | h
    · subst h
      have hp := canon_ty_invariant t htab var_stack fv p (hnb p (List.mem_cons_self p ps))
      refine ⟨hp.1, ?_⟩
      refine bounds_lt_mono ?_ _ hp.2
      simp only [hd]
      simp
    · exact ih (do_canonicalize_ty t var_stack fv p).2
        (fun q hq => hnb q (List.mem_cons_of_mem p hq)) u h

/-- C3: for every cycle length n from 1 up (hence in particular 1 through 50),
canonicalizing a variable that resolves through a chain of n resolved
variables back to itself terminates and produces the variable-kind's fallback
concrete value (Unknown for a general type variable) at the cyclic occurrence,
with no free variable recorded.  Termination for every input is witnessed by
do_canonicalize_ty being a total function, with recursion depth bounded
through the variable stack. -/
theorem canonicalize_terminates_on_cycles (n : Nat) (hn : 1 ≤ n) :
    canonicalize_ty (chain_ctx n) (Ty.Infer (InferTy.TypeVar 0)) =
      { value := { value := Ty.Unknown, num_vars := 0 }, free_vars := [] } := by
  have h := chain_canon n hn n 0 (by omega) []
  rw [Nat.zero_mod] at h
  simp only [List.range_zero, List.reverse_nil] at h
  rw [canonicalize_ty]
  have htab : (chain_ctx n).var_unification_table = chain_table n := rfl
  rw [htab, h]
  rfl

theorem canonicalize_terminates_on_cycles_witness :
    1 ≤ 50 ∧
      canonicalize_ty (chain_ctx 50) (Ty.Infer (InferTy.TypeVar 0)) =
        { value := { value := Ty.Unknown, num_vars := 0 }, free_vars := [] } :=
  ⟨by decide, canonicalize_terminates_on_cycles 50 (by decide)⟩

/-- C6: the result of every complete canonicalization — of a type, of an
environment-wrapped trait reference, or of a projection predicate — satisfies
the Canonical invariant: the Ty-valued contents of the canonical value contain
no live inference variables, every Bound index in them is strictly below
num_vars, and num_vars equals the length of the captured free-variable list —
provided the input contains no pre-existing Bound nodes (neither the
canonicalized types themselves nor the live types stored in the unification
table, where a Bound placeholder would be meaningless). -/
theorem canonical_result_invariant (ctx : InferenceContext) (ty : Ty)
    (tre : InEnvironment TraitRef) (pp : ProjectionPredicate)
    (hty : ty.no_bound = true)
    (htre : ∀ u ∈ tre.value.substs, u.no_bound = true)
    (hpp1 : pp.ty.no_bound = true)
    (hpp2 : ∀ u ∈ pp.projection_ty.parameters, u.no_bound = true)
    (htab : ctx.var_unification_table.values_no_bound) :
    ((canonicalize_ty ctx ty).value.value.no_infer = true ∧
        (canonicalize_ty ctx ty).value.value.bounds_lt
          (canonicalize_ty ctx ty).value.num_vars = true ∧
        (canonicalize_ty ctx ty).value.num_vars =
          (canonicalize_ty ctx ty).free_vars.length) ∧
      ((∀ u ∈ (canonicalize_trait_ref ctx tre).value.value.value.substs,
          u.no_infer = true ∧
            u.bounds_lt (canonicalize_trait_ref ctx tre).value.num_vars = true) ∧
        (canonicalize_trait_ref ctx tre).value.num_vars =
          (canonicalize_trait_ref ctx tre).free_vars.length) ∧
      ((canonicalize_projection ctx pp).value.value.ty.no_infer = true ∧
        (canonicalize_projection ctx pp).value.value.ty.bounds_lt
          (canonicalize_projection ctx pp).value.num_vars = true ∧
        (∀ u ∈ (canonicalize_projection ctx pp).value.value.projection_ty.parameters,
          u.no_infer = true ∧
            u.bounds_lt (canonicalize_projection ctx pp).value.num_vars = true) ∧
        (canonicalize_projection ctx pp).value.num_vars =
          (canonicalize_projection ctx pp).free_vars.length) := by
  refine ⟨?_, ⟨?_, rfl⟩, ?_⟩
  · have h := canon_ty_invariant ctx.var_unification_table htab [] [] ty hty
    exact ⟨h.1, h.2, rfl⟩
  · intro u hu
    exact canon_list_invariant ctx.var_unification_table htab [] tre.value.substs []
      htre u hu
  · have hty1 := canon_ty_invariant ctx.var_unification_table htab [] [] pp.ty hpp1
    obtain ⟨d, hd⟩ := canon_list_extends ctx.var_unification_table []
      (do_canonicalize_ty ctx.var_unification_table [] [] pp.ty).2
      pp.projection_ty.parameters
    refine ⟨hty1.1, ?_, ?_, rfl⟩
    · have hle : (do_canonicalize_ty ctx.var_unification_table [] [] pp.ty).2.length ≤
          (do_canonicalize_ty_list ctx.var_unification_table []
            (do_canonicalize_ty ctx.var_unification_table [] [] pp.ty).2
            pp.projection_ty.parameters).2.length := by
        rw [hd]
        simp
      exact bounds_lt_mono hle _ hty1.2
    · intro u hu
      exact canon_list_invariant ctx.var_unification_table htab []
        pp.projection_ty.parameters
        (do_canonicalize_ty ctx.var_unification_table [] [] pp.ty).2 hpp2 u hu

theorem canonical_result_invariant_witness :
    sample_ty.no_bound = true ∧
      (∀ u ∈ sample_trait_ref.value.substs, u.no_bound = true) ∧
      sample_projection.ty.no_bound = true ∧
      (∀ u ∈ sample_projection.projection_ty.parameters, u.no_bound = true) ∧
      sample_ctx.var_unification_table.values_no_bound ∧
      (((canonicalize_ty sample_ctx sample_ty).value.value.no_infer = true ∧
          (canonicalize_ty sample_ctx sample_ty).value.value.bounds_lt
            (canonicalize_ty sample_ctx sample_ty).value.num_vars = true ∧
          (canonicalize_ty sample_ctx sample_ty).value.num_vars =
            (canonicalize_ty sample_ctx sample_ty).free_vars.length) ∧
        ((∀ u ∈ (canonicalize_trait_ref sample_ctx sample_trait_ref).value.value.value.substs,
            u.no_infer = true ∧
              u.bounds_lt (canonicalize_trait_ref sample_ctx
                sample_trait_ref).value.num_vars = true) ∧
          (canonicalize_trait_ref sample_ctx sample_trait_ref).value.num_vars =
            (canonicalize_trait_ref sample_ctx sample_trait_ref).free_vars.length) ∧
        ((canonicalize_projection sample_ctx sample_projection).value.value.ty.no_infer = true ∧
          (canonicalize_projection sample_ctx sample_projection).value.value.ty.bounds_lt
            (canonicalize_projection sample_ctx sample_projection).value.num_vars = true ∧
          (∀ u ∈ (canonicalize_projection sample_ctx
              sample_projection).value.value.projection_ty.parameters,
            u.no_infer = true ∧
              u.bounds_lt (canonicalize_projection sample_ctx
                sample_projection).value.num_vars = true) ∧
          (canonicalize_projection sample_ctx sample_projection).value.num_vars =
            (canonicalize_projection sample_ctx sample_projection).free_vars.length)) :=
  have h1 : sample_ty.no_bound = true := by rfl
  have h2 : ∀ u ∈ sample_trait_ref.value.substs, u.no_bound = true := by
    intro u hu
    simp only [sample_trait_ref, List.mem_singleton] at hu
    rw [hu]
    rfl
  have h3 : sample_projection.ty.no_bound = true := by rfl
  have h4 : ∀ u ∈ sample_projection.projection_ty.parameters, u.no_bound = true := by
    intro u hu
    simp only [sample_projection, List.mem_singleton] at hu
    rw [hu]
    rfl
  have h5 : sample_ctx.var_unification_table.values_no_bound := by
    intro p hp
    simp only [sample_ctx, id_ctx, List.mem_singleton] at hp
    rw [hp]
    rfl
  ⟨h1, h2, h3, h4, h5,
    canonical_result_invariant sample_ctx sample_ty sample_trait_ref sample_projection
      h1 h2 h3 h4 h5⟩

/-- C8: decanonicalization replaces a Bound node by the inference variable at
that index of the captured free-variable list exactly when the index is in
range, leaves an out-of-range Bound node unchanged (total, never failing), and
commutes with composite structure, so it can be reused on values nested inside
another canonical scope. -/
theorem decanonicalize_bound_in_range_or_unchanged {T : Type} (c : Canonicalized T)
    (idx : Nat) :
    (∀ h : idx < c.free_vars.length,
        c.decanonicalize_ty (Ty.Bound idx) = Ty.Infer (c.free_vars.get ⟨idx, h⟩)) ∧
      (c.free_vars.length ≤ idx → c.decanonicalize_ty (Ty.Bound idx) = Ty.Bound idx) ∧
      ∀ ctor ps, c.decanonicalize_ty (Ty.Apply ctor ps) =
        Ty.Apply ctor (ps.map c.decanonicalize_ty) := by
  refine ⟨?_, ?_, fun ctor ps => decanon_apply_map c ctor ps⟩
  · intro h
    rw [decanon_bound, dif_pos h]
  · intro h
    rw [decanon_bound, dif_neg (by omega)]

theorem decanonicalize_bound_in_range_or_unchanged_witness :
    ((0 : Nat) < (into_canonicalized [InferTy.TypeVar 3] Ty.Unknown).free_vars.length) ∧
      (into_canonicalized [InferTy.TypeVar 3] Ty.Unknown).decanonicalize_ty (Ty.Bound 0) =
        Ty.Infer (InferTy.TypeVar 3) ∧
      ((into_canonicalized [InferTy.TypeVar 3] Ty.Unknown).free_vars.length ≤ 5) ∧
      (into_canonicalized [InferTy.TypeVar 3] Ty.Unknown).decanonicalize_ty (Ty.Bound 5) =
        Ty.Bound 5 :=
  have h0 : (0 : Nat) < (into_canonicalized [InferTy.TypeVar 3] Ty.Unknown).free_vars.length := by
    simp [into_canonicalized]
  have h5 : (into_canonicalized [InferTy.TypeVar 3] Ty.Unknown).free_vars.length ≤ 5 := by
    simp [into_canonicalized]
  ⟨h0,
    (decanonicalize_bound_in_range_or_unchanged
      (into_canonicalized [InferTy.TypeVar 3] Ty.Unknown) 0).1 h0,
    h5,
    (decanonicalize_bound_in_range_or_unchanged
      (into_canonicalized [InferTy.TypeVar 3] Ty.Unknown) 5).2.1 h5⟩

/-- C9: canonicalizing a trait reference or a projection predicate rewrites
only the Ty-valued contents — the trait identity, the associated-type identity
and the wrapping environment are returned exactly equal to their input
values. -/
theorem canonicalize_preserves_non_ty_fields (ctx : InferenceContext)
    (tr : InEnvironment TraitRef) (pp : ProjectionPredicate) :
    ((canonicalize_trait_ref ctx tr).value.value.environment = tr.environment ∧
        (canonicalize_trait_ref ctx tr).value.value.value.trait_ = tr.value.trait_) ∧
      (canonicalize_projection ctx pp).value.value.projection_ty.associated_ty =
        pp.projection_ty.associated_ty :=
  ⟨⟨rfl, rfl⟩, rfl⟩

/-- C10: apply_solution indexes the captured free-variable list at every
position of the solution vector; the out-of-bounds branch (the Rust Vec
indexing panic, modelled as none) is avoided exactly when the solution vector
is no longer than the free-variable list. -/
theorem apply_solution_isSome_iff_enough_free_vars {T : Type} (c : Canonicalized T)
    (ctx : InferenceContext) (solution : Canonical (List Ty)) :
    (Canonicalized.apply_solution c ctx solution).isSome = true ↔
      solution.value.length ≤ c.free_vars.length := by
  rw [Canonicalized.apply_solution, apply_solution_loop_isSome]
  constructor
  · rintro (h | h)
    · simp [h]
    · omega
  · intro h
    right
    omega

/-- C1 (amended): for a type containing no Bound placeholders, all of whose
inference-variable occurrences are unresolved (so no resolved-variable
expansion and in particular no recursive cycle is involved), decanonicalizing
the canonicalized value with the free-variable list captured by that same
canonicalization yields exactly the input type with every inference variable
renamed to the representative (find-root, same kind) of its class: every
position that was replaced by Bound(i) maps back to Infer of that
representative. -/
theorem canonicalize_decanonicalize_roundtrip (ctx : InferenceContext) (ty : Ty)
    (hu : ty.all_unresolved ctx.var_unification_table = true)
    (hnb : ty.no_bound = true) :
    (canonicalize_ty ctx ty).decanonicalize_ty (canonicalize_ty ctx ty).value.value =
      ty.rename_infer (class_rep ctx.var_unification_table) :=
  canon_decanon_core ctx.var_unification_table (canonicalize_ty ctx ty) ty hu hnb []
    ⟨[], by simp [canonicalize_ty, into_canonicalized]⟩

theorem canonicalize_decanonicalize_roundtrip_witness :
    (Ty.Apply 9 [Ty.Infer (InferTy.TypeVar 4),
        Ty.Infer (InferTy.TypeVar 4)]).all_unresolved (id_ctx []).var_unification_table = true ∧
      (Ty.Apply 9 [Ty.Infer (InferTy.TypeVar 4), Ty.Infer (InferTy.TypeVar 4)]).no_bound = true ∧
      (canonicalize_ty (id_ctx [])
          (Ty.Apply 9 [Ty.Infer (InferTy.TypeVar 4), Ty.Infer (InferTy.TypeVar 4)])).decanonicalize_ty
        (canonicalize_ty (id_ctx [])
          (Ty.Apply 9 [Ty.Infer (InferTy.TypeVar 4), Ty.Infer (InferTy.TypeVar 4)])).value.value =
        (Ty.Apply 9 [Ty.Infer (InferTy.TypeVar 4), Ty.Infer (InferTy.TypeVar 4)]).rename_infer
          (class_rep (id_ctx []).var_unification_table) :=
  ⟨rfl, rfl, canonicalize_decanonicalize_roundtrip (id_ctx []) _ rfl rfl⟩

/-- C1 counterexample: the round-trip claim fails, as stated, for a type whose
variable is resolved in the table (without any recursive cycle): the variable
is expanded to its resolved value, so no variable renaming of the input can
produce the decanonicalized result — the resolved position was never replaced
by a Bound placeholder at all. -/
theorem canonicalize_roundtrip_counterexample :
    (canonicalize_ty (id_ctx [(0, Ty.Apply 7 [])])
        (Ty.Infer (InferTy.TypeVar 0))).decanonicalize_ty
      (canonicalize_ty (id_ctx [(0, Ty.Apply 7 [])])
        (Ty.Infer (InferTy.TypeVar 0))).value.value = Ty.Apply 7 [] ∧
    (∀ f : InferTy → InferTy,
        (Ty.Infer (InferTy.TypeVar 0)).rename_infer f ≠ Ty.Apply 7 []) ∧
    (id_ctx [(0, Ty.Apply 7 [])]).var_unification_table.probe_value
        (InferTy.TypeVar 0).to_inner = some (Ty.Apply 7 []) ∧
    (Ty.Apply 7 []).no_infer = true := by
  refine ⟨?_, ?_, rfl, rfl⟩
  · have hcanon : do_canonicalize_ty (id_ctx [(0, Ty.Apply 7 [])]).var_unification_table
        [] [] (Ty.Infer (InferTy.TypeVar 0)) = (Ty.Apply 7 [], []) := by
      have hpr : (id_ctx [(0, Ty.Apply 7 [])]).var_unification_table.probe_value
          (InferTy.TypeVar 0).to_inner = some (Ty.Apply 7 []) := rfl
      rw [canon_infer_resolved (by simp) hpr, canon_apply, canon_list_nil]
    rw [canonicalize_ty, hcanon]
    rw [into_canonicalized, Canonicalized.decanonicalize_ty, fold_apply, fold_list_nil]
  · intro f
    rw [rename_infer_infer]
    simp

/-- C4: apply_solution, for a solution vector matching the free-variable list
in length, performs for every position i one unification in the context of
the original free variable free_vars[i] (as an Infer type) with
solution.value[i] after substituting every Bound(j) inside it by the freshly
allocated variable at position j; nothing else in the context changes except
the fresh-variable counter. -/
theorem apply_solution_unifies_pointwise {T : Type} (c : Canonicalized T)
    (ctx : InferenceContext) (solution : Canonical (List Ty))
    (hlen : solution.value.length = c.free_vars.length) :
    Canonicalized.apply_solution c ctx solution = some
      { var_unification_table := ctx.var_unification_table,
        next_var := ctx.next_var + solution.num_vars,
        unify_log := (ctx.unify_log ++ List.zipWith
          (fun v ty => (Ty.Infer v, ty.subst_bound_vars
            ((List.range solution.num_vars).map
              (fun j => Ty.Infer (InferTy.TypeVar (ctx.next_var + j))))))
          c.free_vars solution.value) } := by
  rw [Canonicalized.apply_solution]
  obtain ⟨h1, h2⟩ := new_type_vars_spec solution.num_vars ctx
  rw [h1, h2]
  rw [apply_solution_loop_spec c.free_vars _ solution.value _ 0 (by omega)]
  rw [List.drop_zero]

theorem apply_solution_unifies_pointwise_witness :
    ([Ty.Apply 3 [], Ty.Apply 4 []].length =
        (into_canonicalized [InferTy.TypeVar 5, InferTy.TypeVar 6] Ty.Unknown).free_vars.length) ∧
      Canonicalized.apply_solution
          (into_canonicalized [InferTy.TypeVar 5, InferTy.TypeVar 6] Ty.Unknown)
          (id_ctx [])
          { value := [Ty.Apply 3 [], Ty.Apply 4 []], num_vars := 0 } = some
        { var_unification_table := (id_ctx []).var_unification_table,
          next_var := 0,
          unify_log := [(Ty.Infer (InferTy.TypeVar 5), Ty.Apply 3 []),
            (Ty.Infer (InferTy.TypeVar 6), Ty.Apply 4 [])] } :=
  have hlen : ([Ty.Apply 3 [], Ty.Apply 4 []].length =
      (into_canonicalized [InferTy.TypeVar 5, InferTy.TypeVar 6] Ty.Unknown).free_vars.length) := by
    rfl
  have h := apply_solution_unifies_pointwise
    (into_canonicalized [InferTy.TypeVar 5, InferTy.TypeVar 6] Ty.Unknown)
    (id_ctx [])
    { value := [Ty.Apply 3 [], Ty.Apply 4 []], num_vars := 0 } hlen
  ⟨hlen, by rw [h]; rfl⟩

/-- C5: apply_solution allocates exactly solution.num_vars fresh inference
variables in the context before performing any unification (the allocation
leaves the unification log untouched), regardless of how solution.num_vars
compares to the length of the captured free-variable list; and a substituted
Bound index pointing at one of the extra slots (at or beyond the
free-variable-list length) resolves to the newly allocated variable at that
position, which is not an entry of free_vars. -/
theorem apply_solution_allocates_fresh_vars {T : Type} (c : Canonicalized T)
    (ctx : InferenceContext) (solution : Canonical (List Ty))
    (hfresh : ∀ v ∈ c.free_vars, v.to_inner < ctx.next_var) :
    (new_type_vars ctx solution.num_vars).1.length = solution.num_vars ∧
      (new_type_vars ctx solution.num_vars).2.next_var =
        ctx.next_var + solution.num_vars ∧
      (new_type_vars ctx solution.num_vars).2.unify_log = ctx.unify_log ∧
      Canonicalized.apply_solution c ctx solution =
        apply_solution_loop c.free_vars (new_type_vars ctx solution.num_vars).1
          (new_type_vars ctx solution.num_vars).2 0 solution.value ∧
      ∀ j, c.free_vars.length ≤ j → j < solution.num_vars →
        (Ty.Bound j).subst_bound_vars (new_type_vars ctx solution.num_vars).1 =
            Ty.Infer (InferTy.TypeVar (ctx.next_var + j)) ∧
          InferTy.TypeVar (ctx.next_var + j) ∉ c.free_vars := by
  obtain ⟨h1, h2⟩ := new_type_vars_spec solution.num_vars ctx
  refine ⟨by rw [h1]; simp, by rw [h2], by rw [h2], rfl, ?_⟩
  intro j hj1 hj2
  constructor
  · have hget : (new_type_vars ctx solution.num_vars).1[j]? =
        some (Ty.Infer (InferTy.TypeVar (ctx.next_var + j))) := by
      rw [h1, List.getElem?_map, List.getElem?_range hj2]
      rfl
    rw [Ty.subst_bound_vars, fold_bound]
    simp only [hget]
  · intro hmem
    have hlt := hfresh _ hmem
    rw [InferTy.to_inner] at hlt
    omega

theorem apply_solution_allocates_fresh_vars_witness :
    (∀ v ∈ (into_canonicalized [InferTy.TypeVar 5] Ty.Unknown).free_vars,
        v.to_inner < ({ id_ctx [] with next_var := 10 } : InferenceContext).next_var) ∧
      (new_type_vars { id_ctx [] with next_var := 10 } 3).1.length = 3 ∧
      (new_type_vars { id_ctx [] with next_var := 10 } 3).2.next_var = 13 ∧
      (Ty.Bound 2).subst_bound_vars
          (new_type_vars { id_ctx [] with next_var := 10 } 3).1 =
        Ty.Infer (InferTy.TypeVar 12) ∧
      InferTy.TypeVar 12 ∉ (into_canonicalized [InferTy.TypeVar 5] Ty.Unknown).free_vars := by
  have hfresh : ∀ v ∈ (into_canonicalized [InferTy.TypeVar 5] Ty.Unknown).free_vars,
      v.to_inner < ({ id_ctx [] with next_var := 10 } : InferenceContext).next_var := by
    intro v hv
    simp only [into_canonicalized, List.mem_singleton] at hv
    rw [hv]
    decide
  have h := apply_solution_allocates_fresh_vars
    (into_canonicalized [InferTy.TypeVar 5] Ty.Unknown)
    { id_ctx [] with next_var := 10 }
    { value := [], num_vars := 3 } hfresh
  have hj := h.2.2.2.2 2 (by simp [into_canonicalized]) (by decide)
  exact ⟨hfresh, h.1, h.2.1, hj.1, hj.2⟩

/-- C7: the Bound index assigned to an unresolved variable's class is the
zero-based position of its first encounter — a class already in the
free-variable list reuses its existing (first) position and the list is
unchanged, a new class is appended at the end and receives the current length
as its position; and canonicalization only ever appends to the free-variable
list, so positions once assigned are stable. -/
theorem free_var_position_first_encounter (fv : List InferTy) (v : InferTy)
    (t : UnifTable) (var_stack : List Nat) (ty : Ty) :
    ((v ∈ fv → Canonicalizer.add fv v = (fv.indexOf v, fv)) ∧
        (v ∉ fv → Canonicalizer.add fv v = (fv.length, fv ++ [v]))) ∧
      ∃ d, (do_canonicalize_ty t var_stack fv ty).2 = fv ++ d := by
  refine ⟨⟨?_, ?_⟩, canon_ty_extends t var_stack fv ty⟩
  · intro hv
    obtain ⟨i, hi⟩ := mem_indexOf?_some hv
    rw [add_eq_of_indexOf?_some hi, List.indexOf_eq_indexOf?, hi]
  · intro hv
    have hx : fv.indexOf? v = none := by
      cases hx : fv.indexOf? v with
      | none => rfl
      | some i =>
        obtain ⟨hi, hget⟩ := indexOf?_some_spec hx
        exact absurd (hget ▸ List.get_mem fv i hi) hv
    exact add_eq_of_indexOf?_none hx

theorem free_var_position_first_encounter_witness :
    (InferTy.TypeVar 3 ∈ [InferTy.TypeVar 3, InferTy.TypeVar 4] ∧
        Canonicalizer.add [InferTy.TypeVar 3, InferTy.TypeVar 4] (InferTy.TypeVar 3) =
          (0, [InferTy.TypeVar 3, InferTy.TypeVar 4])) ∧
      (InferTy.TypeVar 5 ∉ [InferTy.TypeVar 3, InferTy.TypeVar 4] ∧
        Canonicalizer.add [InferTy.TypeVar 3, InferTy.TypeVar 4] (InferTy.TypeVar 5) =
          (2, [InferTy.TypeVar 3, InferTy.TypeVar 4, InferTy.TypeVar 5])) ∧
      ∃ d, (do_canonicalize_ty { reprOf := fun id => id, values := [] } []
          [InferTy.TypeVar 3, InferTy.TypeVar 4] (Ty.Infer (InferTy.TypeVar 9))).2 =
        [InferTy.TypeVar 3, InferTy.TypeVar 4] ++ d := by
  have hmem : InferTy.TypeVar 3 ∈ [InferTy.TypeVar 3, InferTy.TypeVar 4] := by decide
  have hnmem : InferTy.TypeVar 5 ∉ [InferTy.TypeVar 3, InferTy.TypeVar 4] := by decide
  have h3 := free_var_position_first_encounter [InferTy.TypeVar 3, InferTy.TypeVar 4]
    (InferTy.TypeVar 3) { reprOf := fun id => id, values := [] } [] (Ty.Infer (InferTy.TypeVar 9))
  have h5 := free_var_position_first_encounter [InferTy.TypeVar 3, InferTy.TypeVar 4]
    (InferTy.TypeVar 5) { reprOf := fun id => id, values := [] } [] (Ty.Infer (InferTy.TypeVar 9))
  refine ⟨⟨hmem, ?_⟩, ⟨hnmem, ?_⟩, h3.2⟩
  · have := h3.1.1 hmem
    rw [this]
    rfl
  · exact h5.1.2 hnmem

theorem canon_list_two_occurrences (t : UnifTable) (ts1 ts2 ts3 : List Ty)
    (tv1 tv2 : InferTy)
    (h1 : t.probe_value tv1.to_inner = none)
    (h2 : t.probe_value tv2.to_inner = none)
    (hrep : class_rep t tv1 = class_rep t tv2) (fv : List InferTy) :
    ∃ us1 us2 us3 i,
      (do_canonicalize_ty_list t [] fv
          (ts1 ++ Ty.Infer tv1 :: (ts2 ++ Ty.Infer tv2 :: ts3))).1
        = us1 ++ Ty.Bound i :: (us2 ++ Ty.Bound i :: us3) ∧
      us1.length = ts1.length ∧ us2.length = ts2.length ∧ us3.length = ts3.length ∧
      class_rep t tv1 ∈
        (do_canonicalize_ty_list t [] fv
          (ts1 ++ Ty.Infer tv1 :: (ts2 ++ Ty.Infer tv2 :: ts3))).2 := by
  have hst1 : tv1.to_inner ∉ ([] : List Nat) := by simp
  have hst2 : tv2.to_inner ∉ ([] : List Nat) := by simp
  rw [canon_list_append, canon_list_cons, canon_infer_unresolved hst1 h1,
    canon_list_append, canon_list_cons, canon_infer_unresolved hst2 h2, ← hrep]
  have hidx1 : (Canonicalizer.add (do_canonicalize_ty_list t [] fv ts1).2
      (class_rep t tv1)).2.indexOf? (class_rep t tv1) =
        some (Canonicalizer.add (do_canonicalize_ty_list t [] fv ts1).2
          (class_rep t tv1)).1 :=
    add_indexOf? _ _
  obtain ⟨d2, hd2⟩ := canon_list_extends t []
    (Canonicalizer.add (do_canonicalize_ty_list t [] fv ts1).2 (class_rep t tv1)).2 ts2
  have hidx2 : (do_canonicalize_ty_list t []
      (Canonicalizer.add (do_canonicalize_ty_list t [] fv ts1).2 (class_rep t tv1)).2
      ts2).2.indexOf? (class_rep t tv1) =
        some (Canonicalizer.add (do_canonicalize_ty_list t [] fv ts1).2
          (class_rep t tv1)).1 := by
    rw [hd2]
    exact indexOf?_append_some hidx1
  rw [add_eq_of_indexOf?_some hidx2]
  have hmem1 : class_rep t tv1 ∈
      (Canonicalizer.add (do_canonicalize_ty_list t [] fv ts1).2 (class_rep t tv1)).2 := by
    obtain ⟨hi, hget⟩ := indexOf?_some_spec hidx1
    have hm := List.get_mem _ _ hi
    rw [hget] at hm
    exact hm
  obtain ⟨d3, hd3⟩ := canon_list_extends t []
    (do_canonicalize_ty_list t []
      (Canonicalizer.add (do_canonicalize_ty_list t [] fv ts1).2 (class_rep t tv1)).2
      ts2).2 ts3
  refine ⟨(do_canonicalize_ty_list t [] fv ts1).1,
    (do_canonicalize_ty_list t []
      (Canonicalizer.add (do_canonicalize_ty_list t [] fv ts1).2 (class_rep t tv1)).2
      ts2).1,
    (do_canonicalize_ty_list t []
      (do_canonicalize_ty_list t []
        (Canonicalizer.add (do_canonicalize_ty_list t [] fv ts1).2 (class_rep t tv1)).2
        ts2).2 ts3).1,
    (Canonicalizer.add (do_canonicalize_ty_list t [] fv ts1).2 (class_rep t tv1)).1,
    by simp, canon_list_length t [] ts1 fv, canon_list_length t [] ts2 _,
    canon_list_length t [] ts3 _, ?_⟩
  simp only []
  rw [hd3, hd2]
  exact List.mem_append_left _ (List.mem_append_left _ hmem1)

theorem canon_projection_two_fields (t : UnifTable) (a : Nat) (ts2 ts3 : List Ty)
    (tv1 tv2 : InferTy)
    (h1 : t.probe_value tv1.to_inner = none)
    (h2 : t.probe_value tv2.to_inner = none)
    (hrep : class_rep t tv1 = class_rep t tv2) :
    ∃ vs2 vs3,
      (do_canonicalize_projection_predicate t [] []
          { ty := Ty.Infer tv1,
            projection_ty :=
              { associated_ty := a, parameters := ts2 ++ Ty.Infer tv2 :: ts3 } }).1
        = { ty := Ty.Bound 0,
            projection_ty :=
              { associated_ty := a, parameters := vs2 ++ Ty.Bound 0 :: vs3 } } ∧
      vs2.length = ts2.length ∧ vs3.length = ts3.length ∧
      class_rep t tv1 ∈ (do_canonicalize_projection_predicate t [] []
          { ty := Ty.Infer tv1,
            projection_ty :=
              { associated_ty := a, parameters := ts2 ++ Ty.Infer tv2 :: ts3 } }).2 ∧
      (do_canonicalize_projection_predicate t [] []
          { ty := Ty.Infer tv1,
            projection_ty :=
              { associated_ty := a, parameters := ts2 ++ Ty.Infer tv2 :: ts3 } }).2.Nodup := by
  have hst1 : tv1.to_inner ∉ ([] : List Nat) := by simp
  have hst2 : tv2.to_inner ∉ ([] : List Nat) := by simp
  have hadd0 : Canonicalizer.add [] (class_rep t tv1) = (0, [class_rep t tv1]) := rfl
  simp only [do_canonicalize_projection_predicate, do_canonicalize_projection_ty]
  rw [canon_infer_unresolved hst1 h1, hadd0]
  simp only []
  rw [canon_list_append, canon_list_cons, canon_infer_unresolved hst2 h2, ← hrep]
  have hidxs : ([class_rep t tv1]).indexOf? (class_rep t tv1) = some 0 := by
    rw [List.indexOf?_cons]
    simp
  obtain ⟨d2, hd2⟩ := canon_list_extends t [] [class_rep t tv1] ts2
  have hidx2 : (do_canonicalize_ty_list t [] [class_rep t tv1] ts2).2.indexOf?
      (class_rep t tv1) = some 0 := by
    rw [hd2]
    exact indexOf?_append_some hidxs
  rw [add_eq_of_indexOf?_some hidx2]
  obtain ⟨d3, hd3⟩ := canon_list_extends t []
    (do_canonicalize_ty_list t [] [class_rep t tv1] ts2).2 ts3
  refine ⟨(do_canonicalize_ty_list t [] [class_rep t tv1] ts2).1,
    (do_canonicalize_ty_list t []
      (do_canonicalize_ty_list t [] [class_rep t tv1] ts2).2 ts3).1,
    by simp, canon_list_length t [] ts2 _, canon_list_length t [] ts3 _, ?_, ?_⟩
  · simp only []
    rw [hd3, hd2]
    exact List.mem_append_left _
      (List.mem_append_left _ (List.mem_singleton.mpr rfl))
  · simp only []
    exact canon_list_nodup t [] ts3 _
      (canon_list_nodup t [] ts2 _ (List.nodup_singleton _))

/-- C2 (amended): when a traversal encounters two unresolved
inference-variable occurrences belonging to the same unification-table
equivalence class and of the same variable kind — whether both inside one
type, split across the substitution list of a trait reference, or split
between the type field and a parameter of a projection predicate
canonicalized in one call — canonicalization replaces both occurrences with
Bound carrying the identical index, and the resulting free-variable list
(whose length is num_vars) counts that equivalence class exactly once. -/
theorem canonicalize_dedup_same_class_same_kind (ctx : InferenceContext)
    (c a tid eid : Nat) (ts1 ts2 ts3 : List Ty) (tv1 tv2 : InferTy)
    (h1 : ctx.var_unification_table.probe_value tv1.to_inner = none)
    (h2 : ctx.var_unification_table.probe_value tv2.to_inner = none)
    (hrep : class_rep ctx.var_unification_table tv1 =
      class_rep ctx.var_unification_table tv2) :
    (∃ us1 us2 us3 i,
        (canonicalize_ty ctx
            (Ty.Apply c (ts1 ++ Ty.Infer tv1 :: (ts2 ++ Ty.Infer tv2 :: ts3)))).value.value
          = Ty.Apply c (us1 ++ Ty.Bound i :: (us2 ++ Ty.Bound i :: us3)) ∧
        us1.length = ts1.length ∧ us2.length = ts2.length ∧ us3.length = ts3.length) ∧
      (canonicalize_ty ctx
          (Ty.Apply c (ts1 ++ Ty.Infer tv1 :: (ts2 ++ Ty.Infer tv2 :: ts3)))).free_vars.count
        (class_rep ctx.var_unification_table tv1) = 1 ∧
      (∃ ws1 ws2 ws3 k,
        (canonicalize_trait_ref ctx
            { value :=
                { trait_ := tid,
                  substs := ts1 ++ Ty.Infer tv1 :: (ts2 ++ Ty.Infer tv2 :: ts3) },
              environment := eid }).value.value.value.substs
          = ws1 ++ Ty.Bound k :: (ws2 ++ Ty.Bound k :: ws3) ∧
        ws1.length = ts1.length ∧ ws2.length = ts2.length ∧ ws3.length = ts3.length ∧
        (canonicalize_trait_ref ctx
            { value :=
                { trait_ := tid,
                  substs := ts1 ++ Ty.Infer tv1 :: (ts2 ++ Ty.Infer tv2 :: ts3) },
              environment := eid }).free_vars.count
          (class_rep ctx.var_unification_table tv1) = 1) ∧
      ∃ vs2 vs3,
        (canonicalize_projection ctx
            { ty := Ty.Infer tv1,
              projection_ty :=
                { associated_ty := a, parameters := ts2 ++ Ty.Infer tv2 :: ts3 } }).value.value
          = { ty := Ty.Bound 0,
              projection_ty :=
                { associated_ty := a, parameters := vs2 ++ Ty.Bound 0 :: vs3 } } ∧
        vs2.length = ts2.length ∧ vs3.length = ts3.length ∧
        (canonicalize_projection ctx
            { ty := Ty.Infer tv1,
              projection_ty :=
                { associated_ty := a, parameters := ts2 ++ Ty.Infer tv2 :: ts3 } }).free_vars.count
          (class_rep ctx.var_unification_table tv1) = 1 := by
  obtain ⟨us1, us2, us3, i, hshape, hl1, hl2, hl3, hmem⟩ :=
    canon_list_two_occurrences ctx.var_unification_table ts1 ts2 ts3 tv1 tv2 h1 h2 hrep []
  obtain ⟨vs2, vs3, hpshape, hpl2, hpl3, hpmem, hpnodup⟩ :=
    canon_projection_two_fields ctx.var_unification_table a ts2 ts3 tv1 tv2 h1 h2 hrep
  have hnodup : (do_canonicalize_ty_list ctx.var_unification_table [] []
      (ts1 ++ Ty.Infer tv1 :: (ts2 ++ Ty.Infer tv2 :: ts3))).2.Nodup :=
    canon_list_nodup _ _ _ [] (List.nodup_nil)
  refine ⟨⟨us1, us2, us3, i, ?_, hl1, hl2, hl3⟩, ?_,
    ⟨us1, us2, us3, i, ?_, hl1, hl2, hl3, ?_⟩, vs2, vs3, ?_, hpl2, hpl3, ?_⟩
  · simp only [canonicalize_ty, into_canonicalized]
    rw [canon_apply]
    simp only []
    rw [hshape]
  · simp only [canonicalize_ty, into_canonicalized]
    rw [canon_apply]
    simp only []
    exact List.count_eq_one_of_mem hnodup hmem
  · simp only [canonicalize_trait_ref, do_canonicalize_trait_ref, into_canonicalized]
    exact hshape
  · simp only [canonicalize_trait_ref, do_canonicalize_trait_ref, into_canonicalized]
    exact List.count_eq_one_of_mem hnodup hmem
  · simp only [canonicalize_projection, into_canonicalized]
    rw [hpshape]
  · simp only [canonicalize_projection, into_canonicalized]
    exact List.count_eq_one_of_mem hpnodup hpmem

theorem canonicalize_dedup_same_class_same_kind_witness :
    ((id_ctx []).var_unification_table.probe_value (InferTy.TypeVar 0).to_inner = none) ∧
      ((∃ us1 us2 us3 i,
          (canonicalize_ty (id_ctx [])
              (Ty.Apply 9 ([Ty.Unknown] ++ Ty.Infer (InferTy.TypeVar 0) ::
                ([] ++ Ty.Infer (InferTy.TypeVar 0) :: [])))).value.value
            = Ty.Apply 9 (us1 ++ Ty.Bound i :: (us2 ++ Ty.Bound i :: us3)) ∧
          us1.length = [Ty.Unknown].length ∧
          us2.length = List.length ([] : List Ty) ∧
          us3.length = List.length ([] : List Ty)) ∧
        (canonicalize_ty (id_ctx [])
            (Ty.Apply 9 ([Ty.Unknown] ++ Ty.Infer (InferTy.TypeVar 0) ::
              ([] ++ Ty.Infer (InferTy.TypeVar 0) :: [])))).free_vars.count
          (class_rep (id_ctx []).var_unification_table (InferTy.TypeVar 0)) = 1 ∧
        (∃ ws1 ws2 ws3 k,
          (canonicalize_trait_ref (id_ctx [])
              { value :=
                  { trait_ := 3,
                    substs := [Ty.Unknown] ++ Ty.Infer (InferTy.TypeVar 0) ::
                      ([] ++ Ty.Infer (InferTy.TypeVar 0) :: []) },
                environment := 8 }).value.value.value.substs
            = ws1 ++ Ty.Bound k :: (ws2 ++ Ty.Bound k :: ws3) ∧
          ws1.length = [Ty.Unknown].length ∧
          ws2.length = List.length ([] : List Ty) ∧
          ws3.length = List.length ([] : List Ty) ∧
          (canonicalize_trait_ref (id_ctx [])
              { value :=
                  { trait_ := 3,
                    substs := [Ty.Unknown] ++ Ty.Infer (InferTy.TypeVar 0) ::
                      ([] ++ Ty.Infer (InferTy.TypeVar 0) :: []) },
                environment := 8 }).free_vars.count
            (class_rep (id_ctx []).var_unification_table (InferTy.TypeVar 0)) = 1) ∧
        ∃ vs2 vs3,
          (canonicalize_projection (id_ctx [])
              { ty := Ty.Infer (InferTy.TypeVar 0),
                projection_ty :=
                  { associated_ty := 4,
                    parameters := [] ++ Ty.Infer (InferTy.TypeVar 0) :: [] } }).value.value
            = { ty := Ty.Bound 0,
                projection_ty :=
                  { associated_ty := 4,
                    parameters := vs2 ++ Ty.Bound 0 :: vs3 } } ∧
          vs2.length = List.length ([] : List Ty) ∧
          vs3.length = List.length ([] : List Ty) ∧
          (canonicalize_projection (id_ctx [])
              { ty := Ty.Infer (InferTy.TypeVar 0),
                projection_ty :=
                  { associated_ty := 4,
                    parameters := [] ++ Ty.Infer (InferTy.TypeVar 0) :: [] } }).free_vars.count
            (class_rep (id_ctx []).var_unification_table (InferTy.TypeVar 0)) = 1) :=
  ⟨rfl, canonicalize_dedup_same_class_same_kind (id_ctx []) 9 4 3 8 [Ty.Unknown] [] []
    (InferTy.TypeVar 0) (InferTy.TypeVar 0) rfl rfl rfl⟩

/-- C2 counterexample: two unresolved occurrences that belong to the same
unification-table equivalence class (same identifier 0, same representative)
but carry different variable kinds receive different Bound indices, and
num_vars counts that equivalence class twice, contradicting the claim as
stated (which requires only class equality, not kind equality). -/
theorem canonicalize_dedup_counterexample :
    (canonicalize_ty (id_ctx [])
        (Ty.Apply 0 [Ty.Infer (InferTy.TypeVar 0), Ty.Infer (InferTy.IntVar 0)])).value
      = { value := Ty.Apply 0 [Ty.Bound 0, Ty.Bound 1], num_vars := 2 } ∧
    (id_ctx []).var_unification_table.find (InferTy.TypeVar 0).to_inner =
      (id_ctx []).var_unification_table.find (InferTy.IntVar 0).to_inner ∧
    (id_ctx []).var_unification_table.probe_value (InferTy.TypeVar 0).to_inner = none ∧
    (id_ctx []).var_unification_table.probe_value (InferTy.IntVar 0).to_inner = none := by
  refine ⟨?_, rfl, rfl, rfl⟩
  have hpr1 : (id_ctx []).var_unification_table.probe_value
      (InferTy.TypeVar 0).to_inner = none := rfl
  have hpr2 : (id_ctx []).var_unification_table.probe_value
      (InferTy.IntVar 0).to_inner = none := rfl
  rw [canonicalize_ty, canon_apply, canon_list_cons,
    canon_infer_unresolved (by simp) hpr1, canon_list_cons,
    canon_infer_unresolved (by simp) hpr2, canon_list_nil]
  rfl
